import Mathlib

/-!
Verification development for the template-string parser in `src/parser.rs`
(nile-validator).  The parser scans a source string into literal-text and
bracketed spans, classifies each span against three anchored regexes
(command, gender definition, choice list), and compiles parsed fragments
back to text.

Strings are modelled as `List Char` (one entry per Unicode scalar value),
which matches the source's position bookkeeping: the Rust code splits at
byte offsets but measures every position with `str::chars().count()`, so
positions are codepoint counts, i.e. lengths of `List Char` prefixes.

The five regexes (all from `once_cell` statics in the source) are anchored
and deterministic after leftmost-first analysis, so each is embedded as a
hand-written matcher; a comment at each matcher quotes the pattern and
records the determinization argument.
-/

/- Character strings as lists of Unicode scalar values. -/
abbrev Str := List Char

deriving instance DecidableEq for Except

/-- Rust regex-crate `\s` (Unicode `White_Space`). -/
def isWs (c : Char) : Bool :=
  decide ((9 ≤ c.toNat ∧ c.toNat ≤ 13) ∨ c.toNat = 32 ∨ c.toNat = 0x85 ∨
    c.toNat = 0xA0 ∨ c.toNat = 0x1680 ∨ (0x2000 ≤ c.toNat ∧ c.toNat ≤ 0x200A) ∨
    c.toNat = 0x2028 ∨ c.toNat = 0x2029 ∨ c.toNat = 0x202F ∨ c.toNat = 0x205F ∨
    c.toNat = 0x3000)

/-- Rust `char::is_ascii_whitespace`: space, tab, newline, form feed, carriage return. -/
def isAsciiWs (c : Char) : Bool :=
  decide (c.toNat = 32 ∨ c.toNat = 9 ∨ c.toNat = 10 ∨ c.toNat = 12 ∨ c.toNat = 13)

/-- Regex class `[0-9]`: the literal ASCII class of `PAT_CHOICE`'s region
guard `[^\s0-9]`, and the digits `usize::from_str` accepts. -/
def isDigitCh (c : Char) : Bool :=
  decide (48 ≤ c.toNat ∧ c.toNat ≤ 57)

/-- The code point ranges of the Unicode category `Nd` (`Decimal_Number`),
Unicode 15.0 — the table behind the regex crate's `\d`. -/
def ndRanges : List (Nat × Nat) :=
  [(48, 57), (1632, 1641), (1776, 1785), (1984, 1993), (2406, 2415),
   (2534, 2543), (2662, 2671), (2790, 2799), (2918, 2927), (3046, 3055),
   (3174, 3183), (3302, 3311), (3430, 3439), (3558, 3567), (3664, 3673),
   (3792, 3801), (3872, 3881), (4160, 4169), (4240, 4249), (6112, 6121),
   (6160, 6169), (6470, 6479), (6608, 6617), (6784, 6793), (6800, 6809),
   (6992, 7001), (7088, 7097), (7232, 7241), (7248, 7257), (42528, 42537),
   (43216, 43225), (43264, 43273), (43472, 43481), (43504, 43513),
   (43600, 43609), (44016, 44025), (65296, 65305), (66720, 66729),
   (68912, 68921), (69734, 69743), (69872, 69881), (69942, 69951),
   (70096, 70105), (70384, 70393), (70736, 70745), (70864, 70873),
   (71248, 71257), (71360, 71369), (71472, 71481), (71904, 71913),
   (72016, 72025), (72784, 72793), (73040, 73049), (73120, 73129),
   (73552, 73561), (92768, 92777), (92864, 92873), (93008, 93017),
   (120782, 120831), (123200, 123209), (123632, 123641), (124144, 124153),
   (125264, 125273), (130032, 130041)]

/-- Rust regex-crate `\d`: Unicode `\p{Nd}`, not ASCII `[0-9]` —
e.g. U+0663 ARABIC-INDIC DIGIT THREE is a `\d` digit the `[0-9]` class
rejects.  Membership in the `Nd` ranges above. -/
def isUniDigit (c : Char) : Bool :=
  ndRanges.any fun p => decide (p.1 ≤ c.toNat) && decide (c.toNat ≤ p.2)

/-- Regex class `[A-Z]`. -/
def isUpperCh (c : Char) : Bool :=
  decide (65 ≤ c.toNat ∧ c.toNat ≤ 90)

/-- Regex class `[a-z]` (used only to build the ASCII part of `\w`). -/
def isLowerCh (c : Char) : Bool :=
  decide (97 ≤ c.toNat ∧ c.toNat ≤ 122)

/-- Regex class `[A-Z0-9_]` (tail of a command name). -/
def isNameCh (c : Char) : Bool :=
  isUpperCh c || isDigitCh c || decide (c = '_')

/-- Rust regex-crate `\w` (Unicode word character).  The ASCII fragment
`[0-9A-Za-z_]` is exact; above U+007F the Unicode word classes
(Alphabetic, marks, decimal digits, connector punctuation, join controls)
are approximated as any non-whitespace scalar, which is the only property
of non-ASCII word characters the development relies on. -/
def isWordCh (c : Char) : Bool :=
  isUpperCh c || isLowerCh c || isDigitCh c || decide (c = '_') ||
  (decide (0x7F < c.toNat) && !isWs c)

/-- `usize::MAX` with the reference's 64-bit target. -/
def usizeMax : Nat := 2 ^ 64 - 1

/-- Numeric value of a decimal digit run. -/
def natVal (ds : Str) : Nat :=
  ds.foldl (fun a c => 10 * a + (c.toNat - 48)) 0

/-- Rust `str::parse::<usize>().ok()` applied to a digit run captured by
`\d+` (nonempty, all `Nd` digits): `usize::from_str` accepts ASCII digits
only, so a run containing a non-ASCII `Nd` digit fails, as does a value
beyond `usize`; either failure yields `None` (which the parser treats as
an absent index). -/
def parseUsize (ds : Str) : Option Nat :=
  if (∀ x ∈ ds, isDigitCh x = true) ∧ natVal ds ≤ usizeMax then
    some (natVal ds)
  else none

/-- Decimal digit character. -/
def digitCh (n : Nat) : Char := Char.ofNat (48 + n)

/-- Decimal rendering of a positive number, with structural fuel
(`toDecAux n n` never hits the fuel-out branch; see `toDecAux_fuel`). -/
def toDecAux : Nat → Nat → Str
  | _, 0 => []
  | 0, _ + 1 => []
  | fuel + 1, n + 1 => toDecAux fuel ((n + 1) / 10) ++ [digitCh ((n + 1) % 10)]

/-- Rust `format!` decimal rendering of a `usize`. -/
def toDec (n : Nat) : Str := if n = 0 then ['0'] else toDecAux n n

/-- `StringCommand` from the source: optional ordinal index, name, optional
case modifier (field `case` in Rust; renamed `caseMod` because `case` is a
Lean keyword). -/
structure StringCommand where
  index : Option Nat
  name : Str
  caseMod : Option Str
deriving DecidableEq

structure GenderDefinition where
  gender : Str
deriving DecidableEq

structure ChoiceList where
  name : Str
  indexref : Option Nat
  indexsubref : Option Nat
  choices : List Str
deriving DecidableEq

inductive FragmentContent where
  | Text : Str → FragmentContent
  | Command : StringCommand → FragmentContent
  | Gender : GenderDefinition → FragmentContent
  | Choice : ChoiceList → FragmentContent
deriving DecidableEq

structure StringFragment where
  pos_begin : Nat
  pos_end : Nat
  content : FragmentContent
deriving DecidableEq

structure ParsedString where
  fragments : List StringFragment
deriving DecidableEq

structure ParserError where
  pos_begin : Nat
  pos_end : Option Nat
  message : Str
deriving DecidableEq

/-!
### Command grammar

`PAT_COMMAND`: `^\x7b(?:(\d+):)?(|\x7b|[A-Z]+[A-Z0-9_]*)(?:\.(\w+))?\x7d$`
(the braces of the original pattern are shown escaped).

Determinization.  `\d` is the Unicode class `Nd`.  `(\d+):` is greedy;
any shorter digit prefix is followed by a digit, not `:`, so the maximal
run is the only candidate, and when it is not followed by `:` the group
cannot match at all — and then the name alternatives all fail on an `Nd`
digit (none is `[A-Z]`, none is the brace, and the empty name needs `.`
or the closing brace next), so the whole pattern fails.  The name
alternation is tried in order (empty, brace, identifier); the empty branch
can only succeed when the next character is `.` or the closing brace, so
dispatching on the next character is equivalent.  `[A-Z]+[A-Z0-9_]*` is a
maximal run because `.` and the closing brace are outside `[A-Z0-9_]`,
and `\w+` is maximal because the closing brace is not a word character.
-/

/-- Tail `(?:\.(\w+))?\x7d$` of `PAT_COMMAND`, after the name. -/
def cmdTail (idx : Option Str) (nm : Str) (r : Str) : Option StringCommand :=
  match r with
  | '.' :: r1 =>
    let cs := r1.takeWhile isWordCh
    if cs ≠ [] ∧ r1.dropWhile isWordCh = ['\x7d'] then
      some ⟨idx.bind parseUsize, nm, some cs⟩
    else none
  | ['\x7d'] => some ⟨idx.bind parseUsize, nm, none⟩
  | _ => none

/-- Name alternation `(|\x7b|[A-Z]+[A-Z0-9_]*)` of `PAT_COMMAND`. -/
def cmdName (idx : Option Str) (r : Str) : Option StringCommand :=
  match r with
  | '\x7b' :: r1 => cmdTail idx ['\x7b'] r1
  | c :: r1 =>
    if isUpperCh c then
      cmdTail idx (c :: r1.takeWhile isNameCh) (r1.dropWhile isNameCh)
    else
      cmdTail idx [] r
  | [] => none

/-- `StringCommand::parse` (source lines 55-62). -/
def StringCommand.parse (s : Str) : Option StringCommand :=
  match s with
  | '\x7b' :: r =>
    let ds := r.takeWhile isUniDigit
    if ds = [] then cmdName none r
    else
      match r.dropWhile isUniDigit with
      | ':' :: r2 => cmdName (some ds) r2
      | _ => none
  | _ => none

/-- Rendering of the optional ordinal index (`\x7b<i>:` prefix part of
`StringCommand::compile`). -/
def idxPart : Option Nat → Str
  | some i => toDec i ++ [':']
  | none => []

/-- Rendering of the optional case modifier (`.<case>` part of
`StringCommand::compile`). -/
def casePart : Option Str → Str
  | some cs => '.' :: cs
  | none => []

/-- `StringCommand::compile` (source lines 64-75). -/
def StringCommand.compile (c : StringCommand) : Str :=
  '\x7b' :: (idxPart c.index ++ c.name ++ casePart c.caseMod ++ ['\x7d'])

/-!
### Gender grammar

`PAT_GENDER`: `^\x7bG\s*=\s*(\w+)\x7d$`.

Determinization: `=` is not whitespace, word characters are not
whitespace, and the closing brace is not a word character, so each greedy
run is forced.
-/

/-- `GenderDefinition::parse` (source lines 81-86). -/
def GenderDefinition.parse (s : Str) : Option GenderDefinition :=
  match s with
  | '\x7b' :: 'G' :: r =>
    match r.dropWhile isWs with
    | '=' :: r2 =>
      let r3 := r2.dropWhile isWs
      let tag := r3.takeWhile isWordCh
      if tag ≠ [] ∧ r3.dropWhile isWordCh = ['\x7d'] then some ⟨tag⟩ else none
    | _ => none
  | _ => none

/-- `GenderDefinition::compile` (source lines 88-90). -/
def GenderDefinition.compile (g : GenderDefinition) : Str :=
  '\x7b' :: 'G' :: '=' :: (g.gender ++ ['\x7d'])

/-!
### Choice-list grammar

`PAT_CHOICE`: `^\x7b([PG])(?:\s+(\d+)(?::(\d+))?)?(\s+[^\s0-9].*?)\s*\x7d$`
`PAT_ITEM`: `^\s+(?:([^\s"]+)|"([^"]*)")`.

Determinization of `PAT_CHOICE`.  `\d` is Unicode `Nd`, while the region
guard `[^\s0-9]` names the ASCII digits only.  All `\s+`/`\d+` runs are
maximal: a shorter whitespace run is followed by whitespace (rejected by
`\d+` and by `[^\s0-9]` alike) and a shorter digit run is followed by an
`Nd` digit (rejected by `:` and by `\s+` alike, and accepted by
`[^\s0-9]` only where the full run is).  When the optional index group
has consumed `\s+\d+` (optionally `:\d+`) and the remainder fails, the
regex engine backtracks to skipping the group entirely: group 4 then
restarts at the same maximal whitespace run, and succeeds iff the whole
remainder is a valid region — which `[^\s0-9]` decides at the leading
digit, rejecting an ASCII `[0-9]` digit but accepting a non-ASCII `Nd`
one.  The `| some res => some res | none => fallback` match below is that
back-off.  The lazy `.*?` (which does not match `\n`) followed by
`\s*\x7d$` matches iff the remainder ends in a closing brace and the lazy
part — everything up to the maximal whitespace run preceding that final
brace — contains no `\n`; laziness selects exactly that minimal prefix.
-/

/-- Group 4 `(\s+[^\s0-9].*?)` of `PAT_CHOICE` together with the trailing
`\s*\x7d$`; returns the captured token region. -/
def choiceRegion (r : Str) : Option Str :=
  let w := r.takeWhile isWs
  match r.dropWhile isWs with
  | c :: r2 =>
    if w = [] ∨ isDigitCh c then none
    else
      match r2.reverse with
      | '\x7d' :: rb =>
        let a := (rb.dropWhile isWs).reverse
        if a.contains '\n' then none else some (w ++ c :: a)
      | _ => none
  | [] => none

/-- Whole-span match of `PAT_CHOICE`: kind, index digits, sub-index digits,
token region (capture 4). -/
def matchChoice (s : Str) : Option (Char × Option Str × Option Str × Str) :=
  match s with
  | '\x7b' :: k :: r =>
    if k = 'P' ∨ k = 'G' then
      let w := r.takeWhile isWs
      let r1 := r.dropWhile isWs
      let ds := r1.takeWhile isUniDigit
      if w = [] then none
      else if ds = [] then
        (choiceRegion r).map fun reg => (k, none, none, reg)
      else
        match
          (match r1.dropWhile isUniDigit with
            | ':' :: r3 =>
              let ds2 := r3.takeWhile isUniDigit
              if ds2 = [] then none
              else (choiceRegion (r3.dropWhile isUniDigit)).map fun reg =>
                (k, some ds, some ds2, reg)
            | r2 => (choiceRegion r2).map fun reg => (k, some ds, none, reg))
        with
        | some res => some res
        | none => (choiceRegion r).map fun reg => (k, none, none, reg)
    else none
  | _ => none

/-- One step of `PAT_ITEM`: leading `\s+`, then either a bare run
`([^\s"]+)` or a quoted string `"([^"]*)"`; returns the token and the
unconsumed remainder.  The two alternatives are distinguished by the first
character after the whitespace, so the preference order is immaterial. -/
def matchItem (r : Str) : Option (Str × Str) :=
  let w := r.takeWhile isWs
  let r1 := r.dropWhile isWs
  if w = [] then none
  else
    match r1 with
    | '\x22' :: r2 =>
      let tok := r2.takeWhile (· != '\x22')
      match r2.dropWhile (· != '\x22') with
      | '\x22' :: r3 => some (tok, r3)
      | _ => none
    | _ =>
      let tok := r1.takeWhile (fun c => !isWs c && c != '\x22')
      if tok = [] then none
      else some (tok, r1.dropWhile (fun c => !isWs c && c != '\x22'))

/-- The token loop of `ChoiceList::parse` (source lines 108-114): repeat
`PAT_ITEM` until the region is empty; any leftover that matches neither
form fails the whole span.  Structural fuel; `region.length` suffices
because every item consumes at least one character (`itemLoop_fuel`). -/
def itemLoop : Nat → Str → Option (List Str)
  | _, [] => some []
  | 0, _ :: _ => none
  | fuel + 1, r =>
    match matchItem r with
    | some (tok, rest) => (itemLoop fuel rest).map (tok :: ·)
    | none => none

/-- `ChoiceList::parse` (source lines 99-116). -/
def ChoiceList.parse (s : Str) : Option ChoiceList :=
  match matchChoice s with
  | some (k, ds, ds2, reg) =>
    (itemLoop reg.length reg).map fun toks =>
      ⟨[k], ds.bind parseUsize, ds2.bind parseUsize, toks⟩
  | none => none

/-- Rendering of one choice (source lines 126-132): quoted exactly when the
choice is empty or contains an ASCII whitespace character, with a leading
separator space either way. -/
def compileChoiceItem (c : Str) : Str :=
  if c = [] ∨ c.any isAsciiWs then ' ' :: '\x22' :: (c ++ ['\x22'])
  else ' ' :: c

/-- Rendering of the optional sub-index (`:<j>` part of
`ChoiceList::compile`). -/
def subPart : Option Nat → Str
  | some j => ':' :: toDec j
  | none => []

/-- Rendering of the optional index reference (` <i>[:<j>]` part of
`ChoiceList::compile`); the sub-index is emitted only when the index
reference is present, exactly as in the source. -/
def refPart : Option Nat → Option Nat → Str
  | some i, isr => ' ' :: (toDec i ++ subPart isr)
  | none, _ => []

/-- `ChoiceList::compile` (source lines 118-135). -/
def ChoiceList.compile (cl : ChoiceList) : Str :=
  '\x7b' :: (cl.name ++ refPart cl.indexref cl.indexsubref ++
    (cl.choices.map compileChoiceItem).flatten ++ ['\x7d'])

/-- The invalid-span message (source line 147); the offending span is
quoted verbatim between apostrophes. -/
def invalidMsg (s : Str) : Str :=
  "Invalid string command: ".toList ++ '\x27' :: (s ++ ['\x27'])

/-- `FragmentContent::parse` (source lines 139-149): the three grammars are
tried in order (command, gender, choice) and the first match wins. -/
def FragmentContent.parse (s : Str) : Except Str FragmentContent :=
  match StringCommand.parse s with
  | some c => .ok (.Command c)
  | none =>
    match GenderDefinition.parse s with
    | some g => .ok (.Gender g)
    | none =>
      match ChoiceList.parse s with
      | some c => .ok (.Choice c)
      | none => .error (invalidMsg s)

/-- `FragmentContent::compile` (source lines 151-158). -/
def FragmentContent.compile : FragmentContent → Str
  | .Text s => s
  | .Command c => c.compile
  | .Gender g => g.compile
  | .Choice c => c.compile

/-- The unterminated-bracket message (source line 204). -/
def untermMsg : Str :=
  "Unterminated string command, ".toList ++
    '\x27' :: '\x7d' :: '\x27' :: " expected.".toList

/-- The scanner loop of `ParsedString::parse` (source lines 166-216).
Each iteration finds the next opening brace, emits the preceding text (if
nonempty), then finds the first closing brace of the remainder: a missing
closing brace is the unterminated error, otherwise the span through that
brace goes to grammar dispatch.  Rust's `str::find` returns the byte
offset of the first occurrence, and the source converts every split piece
to a codepoint count with `chars().count()`; on the `List Char` model both
are the index of the first occurrence.  Structural fuel; each iteration
consumes at least one character, so `rest.length` suffices
(`parseLoop_fuel`), and the fuel-out branch is unreachable from
`ParsedString.parse`. -/
def parseLoop : Nat → Str → Nat → Except ParserError (List StringFragment)
  | _, [], _ => .ok []
  | 0, _ :: _, pos => .error ⟨pos, none, []⟩
  | fuel + 1, rest, pos =>
    match rest.findIdx? (· == '\x7b') with
    | some start =>
      let rest1 := rest.drop start
      match rest1.findIdx? (· == '\x7d') with
      | some e =>
        match FragmentContent.parse (rest1.take (e + 1)) with
        | .ok content =>
          match parseLoop fuel (rest1.drop (e + 1)) (pos + start + (e + 1)) with
          | .ok frags =>
            .ok ((if 0 < start then [⟨pos, pos + start, .Text (rest.take start)⟩] else []) ++
                 ⟨pos + start, pos + start + (e + 1), content⟩ :: frags)
          | .error err => .error err
        | .error msg => .error ⟨pos + start, some (pos + start + (e + 1)), msg⟩
      | none => .error ⟨pos + start, none, untermMsg⟩
    | none => .ok [⟨pos, pos + rest.length, .Text rest⟩]

/-- `ParsedString::parse` (source lines 162-218). -/
def ParsedString.parse (s : Str) : Except ParserError ParsedString :=
  (parseLoop s.length s 0).map ParsedString.mk

/-- `ParsedString::compile` (source lines 220-226). -/
def ParsedString.compile (p : ParsedString) : Str :=
  (p.fragments.map (·.content.compile)).flatten

/-- Bracketed-span builder used by concrete examples below: the span text
of `inner` between an opening and a closing brace. -/
def sp (inner : String) : Str :=
  '\x7b' :: (inner.toList ++ ['\x7d'])

/-- The quoting test of `ChoiceList::compile` (source line 127): a choice is
rendered quoted exactly when it is empty or contains ASCII whitespace. -/
def needsQuote (c : Str) : Bool :=
  decide (c = []) || c.any isAsciiWs

/-!
### Invariants of parse results and the round-trip side conditions

`CmdInv`/`GenInv`/`ChoiceInv` record the shapes that `FragmentContent.parse`
can actually produce (established below from the matchers); `goodChoice`
is the extra side condition of the amended content round-trip claim, each
of its conjuncts forced by a concrete counterexample family:
  * a first choice rendered bare must not start with an `Nd` digit
    (`\x7b`P 1 "2" x`\x7d` compiles to a span whose first token is re-read
    as part of the index reference, and fails to re-parse; with a
    non-ASCII digit such as U+0663 the re-parse instead swallows the
    token into the overflowing index capture and drops it);
  * a choice rendered bare must contain no Unicode whitespace beyond
    ASCII (it would be split at that character on re-parse);
  * a sub-index without an index reference is dropped by `compile`
    (reachable via an overflowed index reference with a valid sub-index);
  * a `G`-kind list without index reference whose rendering happens to
    match the gender grammar (first token `=`…) re-parses as a gender
    definition instead of a choice list.
`goodChoiceC1` drops the sub-index conjunct: an orphaned sub-index changes
the re-parsed content but not the re-compiled string, so the compile-level
round trip does not need it.
-/

/-- Does a rendered `G`-kind choice list collide with `PAT_GENDER` on
re-parse?  Exactly the shapes `ws* = ws* \w+` of the rendered token part:
a single choice `=w` with `w` nonempty word characters, or the choice `=`
followed by one final all-word choice. -/
def genderShadow (chs : List Str) : Bool :=
  match chs with
  | [c] =>
    match c with
    | '=' :: w => !w.isEmpty && w.all isWordCh
    | _ => false
  | [c1, c2] => decide (c1 = ['=']) && !c2.isEmpty && c2.all isWordCh
  | _ => false

/-- Side condition of the amended round-trip claims, on one choice list. -/
def goodChoice (cl : ChoiceList) : Bool :=
  (match cl.choices with
   | c :: _ => needsQuote c || (match c with | d :: _ => !isUniDigit d | [] => true)
   | [] => true) &&
  cl.choices.all (fun c => needsQuote c || c.all (fun d => !isWs d)) &&
  (cl.indexsubref.isNone || cl.indexref.isSome) &&
  !(decide (cl.name = ['G']) && cl.indexref.isNone && genderShadow cl.choices)

/-- Side condition of the amended content round-trip claim, on a parse
result. -/
def GoodParsed (p : ParsedString) : Prop :=
  ∀ f ∈ p.fragments, ∀ cl, f.content = .Choice cl → goodChoice cl = true

/-- Side condition of the amended compile round-trip claim: `goodChoice`
without the sub-index conjunct. -/
def goodChoiceC1 (cl : ChoiceList) : Bool :=
  (match cl.choices with
   | c :: _ => needsQuote c || (match c with | d :: _ => !isUniDigit d | [] => true)
   | [] => true) &&
  cl.choices.all (fun c => needsQuote c || c.all (fun d => !isWs d)) &&
  !(decide (cl.name = ['G']) && cl.indexref.isNone && genderShadow cl.choices)

/-- Side condition of the amended compile round-trip claim, on a parse
result. -/
def GoodParsedC1 (p : ParsedString) : Prop :=
  ∀ f ∈ p.fragments, ∀ cl, f.content = .Choice cl → goodChoiceC1 cl = true

/-- Dropping an orphaned sub-index (one with no index reference), the one
field of a parse result that `compile` forgets. -/
def normCont : FragmentContent → FragmentContent
  | .Choice cl => .Choice ⟨cl.name, cl.indexref,
      match cl.indexref with
      | some _ => cl.indexsubref
      | none => none, cl.choices⟩
  | c => c

/-- Side condition of the amended round-trip claims, on one fragment
content (only choice lists are restricted). -/
def GoodCont : FragmentContent → Prop
  | .Choice cl => goodChoice cl = true
  | _ => True

/-- Field shapes every command produced by `StringCommand.parse` has. -/
def CmdInv (c : StringCommand) : Prop :=
  (c.name = [] ∨ c.name = ['\x7b'] ∨
    (∃ d ds, c.name = d :: ds ∧ isUpperCh d = true ∧ ∀ x ∈ ds, isNameCh x = true)) ∧
  (∀ cs, c.caseMod = some cs → cs ≠ [] ∧ ∀ x ∈ cs, isWordCh x = true) ∧
  (∀ i, c.index = some i → i ≤ usizeMax)

/-- Field shapes every gender definition produced by
`GenderDefinition.parse` has. -/
def GenInv (g : GenderDefinition) : Prop :=
  g.gender ≠ [] ∧ ∀ x ∈ g.gender, isWordCh x = true

/-- Field shapes every choice list produced by scanner-level parsing has
(the no-`\x7d` part uses that a scanner span contains its closing brace
only at the very end). -/
def ChoiceInv (cl : ChoiceList) : Prop :=
  (cl.name = ['P'] ∨ cl.name = ['G']) ∧ cl.choices ≠ [] ∧
  (∀ i, cl.indexref = some i → i ≤ usizeMax) ∧
  (∀ j, cl.indexsubref = some j → j ≤ usizeMax) ∧
  (∀ ch ∈ cl.choices, ∀ x ∈ ch, x ≠ '\x22' ∧ x ≠ '\x7d' ∧ x ≠ '\n')

/-- Invariant of one fragment content as produced by `ParsedString.parse`. -/
def ContInv : FragmentContent → Prop
  | .Text t => t ≠ [] ∧ ∀ x ∈ t, x ≠ '\x7b'
  | .Command c => CmdInv c
  | .Gender g => GenInv g
  | .Choice cl => ChoiceInv cl

/-- A fragment content that is not literal text. -/
def notText : FragmentContent → Prop
  | .Text _ => False
  | _ => True

/-- No two adjacent literal-text fragments (the scanner emits text only
immediately before a bracketed span or at the very end). -/
def AltOk : List FragmentContent → Prop
  | .Text _ :: c :: rest => notText c ∧ AltOk (c :: rest)
  | _ :: rest => AltOk rest
  | [] => True

/-- Contiguity of fragment ranges: consecutive positions chain from the
first argument to the last, with `pos_begin ≤ pos_end` on each fragment. -/
def FragChain : Nat → List StringFragment → Nat → Prop
  | a, [], b => a = b
  | a, f :: fs, b => f.pos_begin = a ∧ a ≤ f.pos_end ∧ FragChain f.pos_end fs b

/-!
## Character-class and list facts
-/

theorem ne_of_class {f : Char → Bool} {c d : Char} (h : f c = true)
    (hd : f d = false) : c ≠ d := by
  intro he
  subst he
  rw [h] at hd
  exact Bool.noConfusion hd

theorem isWordCh_no_ws {c : Char} (h : isWordCh c = true) : isWs c = false := by
  simp only [isWordCh, isUpperCh, isLowerCh, isDigitCh, Bool.or_eq_true,
    Bool.and_eq_true, decide_eq_true_eq, Bool.not_eq_true'] at h
  rcases h with ((((h | h) | h) | h) | h)
  · simp only [isWs, decide_eq_false_iff_not]
    omega
  · simp only [isWs, decide_eq_false_iff_not]
    omega
  · simp only [isWs, decide_eq_false_iff_not]
    omega
  · subst h
    decide
  · exact h.2

theorem isNameCh_word {c : Char} (h : isNameCh c = true) : isWordCh c = true := by
  simp only [isNameCh, Bool.or_eq_true] at h
  simp only [isWordCh, Bool.or_eq_true]
  tauto

theorem isDigitCh_name {c : Char} (h : isDigitCh c = true) : isNameCh c = true := by
  simp only [isNameCh, Bool.or_eq_true]
  tauto

theorem isUpperCh_name {c : Char} (h : isUpperCh c = true) : isNameCh c = true := by
  simp only [isNameCh, Bool.or_eq_true]
  tauto

theorem isNameCh_no_ws {c : Char} (h : isNameCh c = true) : isWs c = false :=
  isWordCh_no_ws (isNameCh_word h)

theorem isDigitCh_no_ws {c : Char} (h : isDigitCh c = true) : isWs c = false :=
  isNameCh_no_ws (isDigitCh_name h)

theorem isAsciiWs_ws {c : Char} (h : isAsciiWs c = true) : isWs c = true := by
  simp only [isAsciiWs, decide_eq_true_eq] at h
  simp only [isWs, decide_eq_true_eq]
  omega

theorem takeWhile_append_all {α : Type} {p : α → Bool} {xs ys : List α}
    (h : ∀ c ∈ xs, p c = true) :
    (xs ++ ys).takeWhile p = xs ++ ys.takeWhile p := by
  induction xs with
  | nil => simp
  | cons a l ih =>
    rw [List.cons_append, List.takeWhile_cons_of_pos (h a (List.mem_cons_self a l)),
      ih fun c hc => h c (List.mem_cons_of_mem a hc), List.cons_append]

theorem dropWhile_append_all {α : Type} {p : α → Bool} {xs ys : List α}
    (h : ∀ c ∈ xs, p c = true) :
    (xs ++ ys).dropWhile p = ys.dropWhile p := by
  induction xs with
  | nil => simp
  | cons a l ih =>
    rw [List.cons_append, List.dropWhile_cons_of_pos (h a (List.mem_cons_self a l)),
      ih fun c hc => h c (List.mem_cons_of_mem a hc)]

theorem takeWhile_split {α : Type} {p : α → Bool} {xs ys : List α} {y : α}
    (hall : ∀ c ∈ xs, p c = true) (hy : p y = false) :
    (xs ++ y :: ys).takeWhile p = xs ∧ (xs ++ y :: ys).dropWhile p = y :: ys := by
  constructor
  · rw [takeWhile_append_all hall, List.takeWhile_cons_of_neg (by simp [hy]),
      List.append_nil]
  · rw [dropWhile_append_all hall, List.dropWhile_cons_of_neg (by simp [hy])]

theorem natVal_append_digit (a : Str) (c : Char) :
    natVal (a ++ [c]) = 10 * natVal a + (c.toNat - 48) := by
  simp [natVal, List.foldl_append]

theorem toNat_digitCh {d : Nat} (h : d < 10) : (digitCh d).toNat = 48 + d := by
  interval_cases d <;> rfl

theorem isDigitCh_digitCh {d : Nat} (h : d < 10) : isDigitCh (digitCh d) = true := by
  simp only [isDigitCh, decide_eq_true_eq, toNat_digitCh h]
  omega

theorem toDecAux_zero (fuel : Nat) : toDecAux fuel 0 = [] := by
  cases fuel <;> rfl

theorem toDecAux_succ (fuel m : Nat) :
    toDecAux (fuel + 1) (m + 1) =
      toDecAux fuel ((m + 1) / 10) ++ [digitCh ((m + 1) % 10)] := rfl

theorem toDecAux_spec :
    ∀ fuel n, 0 < n → n ≤ fuel →
      (∀ c ∈ toDecAux fuel n, isDigitCh c = true) ∧
      natVal (toDecAux fuel n) = n ∧ toDecAux fuel n ≠ [] := by
  intro fuel
  induction fuel with
  | zero => intro n h1 h2; omega
  | succ fuel ih =>
    intro n h1 h2
    obtain ⟨m, rfl⟩ : ∃ m, n = m + 1 := ⟨n - 1, by omega⟩
    rw [toDecAux_succ]
    by_cases hq : (m + 1) / 10 = 0
    · rw [hq, toDecAux_zero, List.nil_append]
      have hm : m + 1 < 10 := by omega
      have hmod : (m + 1) % 10 = m + 1 := Nat.mod_eq_of_lt hm
      rw [hmod]
      refine ⟨?_, ?_, by simp⟩
      · intro c hc
        rw [List.mem_singleton] at hc
        subst hc
        exact isDigitCh_digitCh (by omega)
      · show natVal ([] ++ [digitCh (m + 1)]) = m + 1
        rw [natVal_append_digit, toNat_digitCh hm]
        simp [natVal]
    · have hlt : (m + 1) / 10 ≤ fuel := by
        have := Nat.div_lt_self (show 0 < m + 1 by omega) (show 1 < 10 by omega)
        omega
      obtain ⟨ihd, ihv, ihne⟩ := ih ((m + 1) / 10) (by omega) hlt
      refine ⟨?_, ?_, by simp⟩
      · intro c hc
        rcases List.mem_append.mp hc with hc | hc
        · exact ihd c hc
        · rw [List.mem_singleton] at hc
          subst hc
          exact isDigitCh_digitCh (Nat.mod_lt _ (by omega))
      · rw [natVal_append_digit, ihv, toNat_digitCh (Nat.mod_lt _ (by omega))]
        omega

theorem toDec_digits {n : Nat} : ∀ c ∈ toDec n, isDigitCh c = true := by
  intro c hc
  by_cases hn : n = 0
  · subst hn
    rw [show toDec 0 = ['0'] by decide, List.mem_singleton] at hc
    subst hc
    decide
  · rw [toDec, if_neg hn] at hc
    exact (toDecAux_spec n n (by omega) le_rfl).1 c hc

theorem natVal_toDec (n : Nat) : natVal (toDec n) = n := by
  by_cases hn : n = 0
  · subst hn
    decide
  · rw [toDec, if_neg hn]
    exact (toDecAux_spec n n (by omega) le_rfl).2.1

theorem toDec_ne_nil {n : Nat} : toDec n ≠ [] := by
  by_cases hn : n = 0
  · subst hn
    decide
  · rw [toDec, if_neg hn]
    exact (toDecAux_spec n n (by omega) le_rfl).2.2

theorem parseUsize_toDec {n : Nat} (h : n ≤ usizeMax) :
    parseUsize (toDec n) = some n := by
  rw [parseUsize, natVal_toDec, if_pos ⟨toDec_digits, h⟩]

theorem parseUsize_le {ds : Str} {n : Nat} (h : parseUsize ds = some n) :
    n ≤ usizeMax := by
  rw [parseUsize] at h
  split at h
  · cases h
    rename_i hcond
    exact hcond.2
  · cases h

theorem isUniDigit_of_digit {c : Char} (h : isDigitCh c = true) :
    isUniDigit c = true := by
  simp only [isDigitCh, decide_eq_true_eq] at h
  simp only [isUniDigit, ndRanges, List.any_cons, List.any_nil,
    Bool.or_eq_true, Bool.and_eq_true, decide_eq_true_eq]
  exact Or.inl ⟨h.1, h.2⟩

theorem isDigitCh_of_not_uni {c : Char} (h : isUniDigit c = false) :
    isDigitCh c = false := by
  cases hd : isDigitCh c with
  | false => rfl
  | true =>
    rw [isUniDigit_of_digit hd] at h
    cases h

theorem toDec_uniDigits {n : Nat} : ∀ c ∈ toDec n, isUniDigit c = true :=
  fun c hc => isUniDigit_of_digit (toDec_digits c hc)

/-- No `Nd` range meets `[A-Z]`. -/
theorem isUniDigit_false_of_upper {c : Char} (h : isUpperCh c = true) :
    isUniDigit c = false := by
  simp only [isUpperCh, decide_eq_true_eq] at h
  cases hu : isUniDigit c with
  | false => rfl
  | true =>
    exfalso
    simp only [isUniDigit] at hu
    obtain ⟨p, hp, hc2⟩ := List.any_eq_true.mp hu
    simp only [Bool.and_eq_true, decide_eq_true_eq] at hc2
    fin_cases hp <;> omega

/-- No `Nd` range meets `White_Space`. -/
theorem isUniDigit_no_ws {c : Char} (h : isUniDigit c = true) :
    isWs c = false := by
  cases hw : isWs c with
  | false => rfl
  | true =>
    exfalso
    simp only [isUniDigit] at h
    obtain ⟨p, hp, hc2⟩ := List.any_eq_true.mp h
    simp only [Bool.and_eq_true, decide_eq_true_eq] at hc2
    simp only [isWs, decide_eq_true_eq] at hw
    fin_cases hp <;> omega

/-!
## Command grammar: soundness and reconstruction
-/

theorem cmdTail_sound {idx : Option Str} {nm r : Str} {c : StringCommand}
    (h : cmdTail idx nm r = some c) :
    c.index = idx.bind parseUsize ∧ c.name = nm ∧
      (c.caseMod = none ∨
        ∃ cs, c.caseMod = some cs ∧ cs ≠ [] ∧ ∀ x ∈ cs, isWordCh x = true) := by
  rw [cmdTail.eq_def] at h
  split at h
  · dsimp only at h
    split at h
    · rename_i hcond
      cases h
      refine ⟨rfl, rfl, Or.inr ⟨_, rfl, hcond.1, ?_⟩⟩
      intro x hx
      exact List.mem_takeWhile_imp hx
    · cases h
  · cases h
    exact ⟨rfl, rfl, Or.inl rfl⟩
  · cases h

theorem cmdName_sound {idx : Option Str} {r : Str} {c : StringCommand}
    (h : cmdName idx r = some c) :
    c.index = idx.bind parseUsize ∧
      (c.name = [] ∨ c.name = ['\x7b'] ∨
        (∃ d ds, c.name = d :: ds ∧ isUpperCh d = true ∧ ∀ x ∈ ds, isNameCh x = true)) ∧
      (∀ cs, c.caseMod = some cs → cs ≠ [] ∧ ∀ x ∈ cs, isWordCh x = true) := by
  have caseOf : ∀ (P : Prop), (c.caseMod = none ∨
      ∃ cs, c.caseMod = some cs ∧ cs ≠ [] ∧ ∀ x ∈ cs, isWordCh x = true) →
      (∀ cs, c.caseMod = some cs → cs ≠ [] ∧ ∀ x ∈ cs, isWordCh x = true) := by
    intro _ hc cs hcs
    rcases hc with hc | ⟨cs', hcs', h1, h2⟩
    · rw [hc] at hcs
      cases hcs
    · rw [hcs'] at hcs
      cases hcs
      exact ⟨h1, h2⟩
  rw [cmdName.eq_def] at h
  split at h
  · obtain ⟨hi, hn, hc⟩ := cmdTail_sound h
    exact ⟨hi, Or.inr (Or.inl hn), caseOf True hc⟩
  · rename_i d r1 _
    split at h
    · rename_i hup
      obtain ⟨hi, hn, hc⟩ := cmdTail_sound h
      refine ⟨hi, Or.inr (Or.inr ⟨d, _, hn, hup, ?_⟩), caseOf True hc⟩
      intro x hx
      exact List.mem_takeWhile_imp hx
    · obtain ⟨hi, hn, hc⟩ := cmdTail_sound h
      exact ⟨hi, Or.inl hn, caseOf True hc⟩
  · cases h

theorem commandParse_sound {s : Str} {c : StringCommand}
    (h : StringCommand.parse s = some c) : CmdInv c := by
  rw [StringCommand.parse.eq_def] at h
  split at h
  · rename_i r
    dsimp only at h
    split at h
    · obtain ⟨hi, hn, hc⟩ := cmdName_sound h
      refine ⟨hn, hc, ?_⟩
      intro i hic
      rw [hi] at hic
      cases hic
    · split at h
      · obtain ⟨hi, hn, hc⟩ := cmdName_sound h
        refine ⟨hn, hc, ?_⟩
        intro i hic
        rw [hi] at hic
        exact parseUsize_le hic
      · cases h
  · cases h


theorem cmdTail_compile_none {idx : Option Str} {nm : Str} :
    cmdTail idx nm ['\x7d'] = some ⟨idx.bind parseUsize, nm, none⟩ := rfl

theorem cmdTail_compile_case {idx : Option Str} {nm cs : Str}
    (hne : cs ≠ []) (hword : ∀ x ∈ cs, isWordCh x = true) :
    cmdTail idx nm ('.' :: (cs ++ ['\x7d'])) =
      some ⟨idx.bind parseUsize, nm, some cs⟩ := by
  have hsplit := @takeWhile_split _ isWordCh _ ([] : Str) _ hword
    (show isWordCh '\x7d' = false by decide)
  simp only [cmdTail]
  rw [hsplit.1, hsplit.2, if_pos ⟨hne, rfl⟩]

theorem cmdName_brace {idx : Option Str} {r1 : Str} :
    cmdName idx ('\x7b' :: r1) = cmdTail idx ['\x7b'] r1 := rfl

theorem cmdName_upper {idx : Option Str} {d : Char} {r1 : Str}
    (h : isUpperCh d = true) :
    cmdName idx (d :: r1) =
      cmdTail idx (d :: r1.takeWhile isNameCh) (r1.dropWhile isNameCh) := by
  rw [cmdName.eq_def]
  split
  · rename_i heq
    injection heq with h1 h2
    subst h1
    exact absurd h (by decide)
  · rename_i c r1' heq
    injection heq with h1 h2
    subst h1
    subst h2
    rw [if_pos h]
  · rename_i heq
    cases heq

theorem cmdName_low {idx : Option Str} {d : Char} {r1 : Str}
    (hbr : d ≠ '\x7b') (h : isUpperCh d = false) :
    cmdName idx (d :: r1) = cmdTail idx [] (d :: r1) := by
  rw [cmdName.eq_def]
  split
  · rename_i heq
    injection heq with h1 h2
    exact absurd h1 hbr
  · rename_i c r1' heq
    injection heq with h1 h2
    subst h1
    subst h2
    rw [if_neg (by rw [h]; exact Bool.false_ne_true)]
  · rename_i heq
    cases heq

theorem commandParse_nodigit {r : Str} (h : r.takeWhile isUniDigit = []) :
    StringCommand.parse ('\x7b' :: r) = cmdName none r := by
  simp only [StringCommand.parse]
  rw [if_pos h]

theorem commandParse_digit {i : Nat} {rest : Str} :
    StringCommand.parse ('\x7b' :: (toDec i ++ ':' :: rest)) =
      cmdName (some (toDec i)) rest := by
  have hsplit := @takeWhile_split _ isUniDigit (toDec i) rest _
    toDec_uniDigits (show isUniDigit ':' = false by decide)
  simp only [StringCommand.parse]
  rw [hsplit.1, hsplit.2, if_neg toDec_ne_nil]
  rfl

/-- Head character of the rendered case-modifier part followed by the
closing brace: always `.` or `\x7d`, in particular not a name, digit
(ASCII or `Nd`), brace or uppercase character. -/
theorem casePart_head (cm : Option Str) :
    ∃ h0 t0, casePart cm ++ ['\x7d'] = h0 :: t0 ∧
      isNameCh h0 = false ∧ isDigitCh h0 = false ∧ h0 ≠ '\x7b' ∧
      isUpperCh h0 = false ∧ isUniDigit h0 = false := by
  cases cm with
  | none =>
    exact ⟨'\x7d', [], rfl, by decide, by decide, by decide, by decide,
      by decide⟩
  | some cs =>
    exact ⟨'.', cs ++ ['\x7d'], rfl, by decide, by decide, by decide,
      by decide, by decide⟩

theorem cmdTail_compile {idx : Option Str} {nm : Str} {cm : Option Str}
    (hcase : ∀ cs, cm = some cs → cs ≠ [] ∧ ∀ x ∈ cs, isWordCh x = true) :
    cmdTail idx nm (casePart cm ++ ['\x7d']) =
      some ⟨idx.bind parseUsize, nm, cm⟩ := by
  cases cm with
  | none => exact cmdTail_compile_none
  | some cs =>
    obtain ⟨h1, h2⟩ := hcase cs rfl
    exact cmdTail_compile_case h1 h2

theorem cmdName_compile {idx : Option Str} {nm : Str} {cm : Option Str}
    (hname : nm = [] ∨ nm = ['\x7b'] ∨
      (∃ d ds, nm = d :: ds ∧ isUpperCh d = true ∧ ∀ x ∈ ds, isNameCh x = true))
    (hcase : ∀ cs, cm = some cs → cs ≠ [] ∧ ∀ x ∈ cs, isWordCh x = true) :
    cmdName idx (nm ++ (casePart cm ++ ['\x7d'])) =
      some ⟨idx.bind parseUsize, nm, cm⟩ := by
  obtain ⟨h0, t0, hht, hn0, hd0, hb0, hu0, hnu0⟩ := casePart_head cm
  rcases hname with hname | hname | ⟨d, ds, hname, hup, hds⟩ <;> subst hname <;>
    simp only [List.cons_append, List.nil_append]
  · rw [hht, cmdName_low hb0 hu0, ← hht]
    exact cmdTail_compile hcase
  · rw [cmdName_brace]
    exact cmdTail_compile hcase
  · rw [cmdName_upper hup]
    have hsp := @takeWhile_split _ isNameCh ds t0 _ hds hn0
    rw [hht, hsp.1, hsp.2, ← hht]
    exact cmdTail_compile hcase

theorem command_roundtrip {c : StringCommand} (hinv : CmdInv c) :
    StringCommand.parse c.compile = some c := by
  obtain ⟨idx0, nm0, cm0⟩ := c
  obtain ⟨hname, hcase, hidx⟩ := hinv
  simp only at hname hcase hidx
  show StringCommand.parse
    ('\x7b' :: (idxPart idx0 ++ nm0 ++ casePart cm0 ++ ['\x7d'])) = _
  rw [List.append_assoc, List.append_assoc]
  cases idx0 with
  | none =>
    rw [show idxPart none = [] from rfl, List.nil_append]
    rw [commandParse_nodigit, cmdName_compile hname hcase]
    · rfl
    · -- leading character of the name/tail region is not a digit
      obtain ⟨h0, t0, hht, hn0, hd0, hb0, hu0, hnu0⟩ := casePart_head cm0
      rcases hname with hname | hname | ⟨d, ds, hname, hup, hds⟩ <;> subst hname <;>
        simp only [List.cons_append, List.nil_append]
      · rw [hht]
        exact List.takeWhile_cons_of_neg (by simp [hnu0])
      · exact List.takeWhile_cons_of_neg (by decide)
      · exact List.takeWhile_cons_of_neg
          (by simp [isUniDigit_false_of_upper hup])
  | some i =>
    rw [show idxPart (some i) = toDec i ++ [':'] from rfl, List.append_assoc,
      show [':'] ++ (nm0 ++ (casePart cm0 ++ ['\x7d'])) =
        ':' :: (nm0 ++ (casePart cm0 ++ ['\x7d'])) from rfl]
    rw [commandParse_digit, cmdName_compile hname hcase,
      show (some (toDec i)).bind parseUsize = parseUsize (toDec i) from rfl,
      parseUsize_toDec (hidx i rfl)]

/-!
## Gender grammar: soundness and reconstruction
-/

theorem cmdTail_ne {idx : Option Str} {nm : Str} {c : Char} {r1 : Str}
    (h1 : c ≠ '.') (h2 : ¬(c = '\x7d' ∧ r1 = [])) :
    cmdTail idx nm (c :: r1) = none := by
  rw [cmdTail.eq_def]
  split
  · rename_i heq
    injection heq with ha hb
    exact absurd ha h1
  · rename_i heq
    injection heq with ha hb
    exact absurd ⟨ha, hb⟩ h2
  · rfl

theorem genderParse_sound {s : Str} {g : GenderDefinition}
    (h : GenderDefinition.parse s = some g) : GenInv g := by
  rw [GenderDefinition.parse.eq_def] at h
  split at h
  · split at h
    · dsimp only at h
      split at h
      · rename_i hcond
        cases h
        refine ⟨hcond.1, ?_⟩
        intro x hx
        exact List.mem_takeWhile_imp hx
      · cases h
    · cases h
  · cases h

theorem gender_parse_eqn {r r2 : Str} (h : r.dropWhile isWs = '=' :: r2) :
    GenderDefinition.parse ('\x7b' :: 'G' :: r) =
      (if (r2.dropWhile isWs).takeWhile isWordCh ≠ [] ∧
          (r2.dropWhile isWs).dropWhile isWordCh = ['\x7d'] then
        some ⟨(r2.dropWhile isWs).takeWhile isWordCh⟩ else none) := by
  simp only [GenderDefinition.parse]
  rw [h]
  split
  · rename_i r2' heq
    injection heq with h1 h2
    subst h2
    rfl
  · rename_i hno
    exact absurd rfl (hno r2)

theorem gender_roundtrip {g : GenderDefinition} (hinv : GenInv g) :
    GenderDefinition.parse g.compile = some g := by
  obtain ⟨tag⟩ := g
  obtain ⟨hne, hword⟩ := hinv
  simp only at hne hword
  show GenderDefinition.parse ('\x7b' :: 'G' :: '=' :: (tag ++ ['\x7d'])) = _
  rw [gender_parse_eqn (List.dropWhile_cons_of_neg (by decide))]
  obtain ⟨x, xs, rfl⟩ : ∃ x xs, tag = x :: xs := by
    cases tag with
    | nil => exact absurd rfl hne
    | cons x xs => exact ⟨x, xs, rfl⟩
  have hxw : isWordCh x = true := hword x (List.mem_cons_self x xs)
  have hsp := @takeWhile_split _ isWordCh (x :: xs) ([] : Str) _
    hword (show isWordCh '\x7d' = false by decide)
  rw [show ((x :: xs) ++ ['\x7d'] : Str) = x :: (xs ++ ['\x7d']) from rfl,
    List.dropWhile_cons_of_neg (by simp [isWordCh_no_ws hxw]),
    show (x :: (xs ++ ['\x7d']) : Str) = (x :: xs) ++ ['\x7d'] from rfl,
    hsp.1, hsp.2, if_pos ⟨hne, rfl⟩]

/-- The compiled gender definition never matches the command grammar,
so the dispatch order in `FragmentContent.parse` reaches the gender
grammar on it. -/
theorem gender_compile_not_command {g : GenderDefinition} (hinv : GenInv g) :
    StringCommand.parse g.compile = none := by
  obtain ⟨tag⟩ := g
  show StringCommand.parse ('\x7b' :: 'G' :: '=' :: (tag ++ ['\x7d'])) = none
  rw [commandParse_nodigit (List.takeWhile_cons_of_neg (by decide)),
    cmdName_upper (by decide),
    List.takeWhile_cons_of_neg (by decide), List.dropWhile_cons_of_neg (by decide),
    cmdTail_ne (by decide) (by simp)]

/-!
## Choice grammar: item sub-parser
-/

theorem needsQuote_iff {c : Str} :
    needsQuote c = true ↔ (c = [] ∨ c.any isAsciiWs = true) := by
  simp [needsQuote]

theorem compileChoiceItem_quote {c : Str} (h : needsQuote c = true) :
    compileChoiceItem c = ' ' :: '\x22' :: (c ++ ['\x22']) := by
  rw [compileChoiceItem, if_pos (needsQuote_iff.mp h)]

theorem compileChoiceItem_bare {c : Str} (h : needsQuote c = false) :
    compileChoiceItem c = ' ' :: c := by
  rw [compileChoiceItem, if_neg]
  intro hc
  rw [needsQuote_iff.mpr hc] at h
  exact Bool.noConfusion h

theorem bare_ne_nil {c : Str} (h : needsQuote c = false) : c ≠ [] := by
  intro hc
  rw [needsQuote_iff.mpr (Or.inl hc)] at h
  exact Bool.noConfusion h

/-- One rendered choice item always starts with a separator space. -/
theorem compileChoiceItem_head (c : Str) :
    ∃ t, compileChoiceItem c = ' ' :: t := by
  cases h : needsQuote c with
  | true => exact ⟨_, compileChoiceItem_quote h⟩
  | false => exact ⟨_, compileChoiceItem_bare h⟩

/-- The rendered token part of a choice list is empty or starts with a
space. -/
theorem itemsFlat_head (chs : List Str) :
    (chs.map compileChoiceItem).flatten = [] ∨
      ∃ t, (chs.map compileChoiceItem).flatten = ' ' :: t := by
  cases chs with
  | nil => exact Or.inl rfl
  | cons c rest =>
    obtain ⟨t, ht⟩ := compileChoiceItem_head c
    exact Or.inr ⟨t ++ (rest.map compileChoiceItem).flatten, by
      simp [ht]⟩

theorem matchItem_eqn_quote {r r2 : Str}
    (hw : r.takeWhile isWs ≠ []) (hdrop : r.dropWhile isWs = '\x22' :: r2) :
    matchItem r =
      (match r2.dropWhile (· != '\x22') with
        | '\x22' :: r3 => some (r2.takeWhile (· != '\x22'), r3)
        | _ => none) := by
  simp only [matchItem]
  rw [if_neg (by simpa using hw), hdrop]
  split
  · rename_i r2' heq
    injection heq with h1 h2
    subst h2
    rfl
  · rename_i hno
    exact absurd rfl (hno r2)

theorem matchItem_eqn_bare {r : Str} {d : Char} {r1 : Str}
    (hw : r.takeWhile isWs ≠ []) (hdrop : r.dropWhile isWs = d :: r1)
    (hd : d ≠ '\x22') :
    matchItem r =
      (if (d :: r1).takeWhile (fun c => !isWs c && c != '\x22') = [] then none
       else some ((d :: r1).takeWhile (fun c => !isWs c && c != '\x22'),
         (d :: r1).dropWhile (fun c => !isWs c && c != '\x22'))) := by
  simp only [matchItem]
  rw [if_neg (by simpa using hw), hdrop]
  split
  · rename_i r2' heq
    injection heq with h1 h2
    exact absurd h1 hd
  · rfl


theorem matchItem_compile {ch rest' : Str}
    (hq : ∀ x ∈ ch, x ≠ '\x22')
    (hbare : needsQuote ch = false → ∀ x ∈ ch, isWs x = false)
    (hrest : rest' = [] ∨ ∃ t, rest' = ' ' :: t) :
    matchItem (compileChoiceItem ch ++ rest') = some (ch, rest') := by
  cases hnq : needsQuote ch with
  | true =>
    rw [compileChoiceItem_quote hnq]
    have hdrop : (' ' :: '\x22' :: (ch ++ ['\x22']) ++ rest').dropWhile isWs =
        '\x22' :: (ch ++ '\x22' :: rest') := by
      rw [List.cons_append, List.dropWhile_cons_of_pos (by decide),
        List.cons_append, List.dropWhile_cons_of_neg (by decide)]
      simp
    have hwne : (' ' :: '\x22' :: (ch ++ ['\x22']) ++ rest').takeWhile isWs ≠ [] := by
      rw [List.cons_append, List.takeWhile_cons_of_pos (by decide)]
      simp
    rw [matchItem_eqn_quote hwne hdrop]
    have hsp := @takeWhile_split _ (fun x => x != '\x22') ch
      rest' '\x22' (fun x hx => by simpa using hq x hx) (by simp)
    rw [hsp.1, hsp.2]
    rfl
  | false =>
    rw [compileChoiceItem_bare hnq]
    obtain ⟨d, ds, rfl⟩ : ∃ d ds, ch = d :: ds := by
      cases ch with
      | nil => exact absurd rfl (bare_ne_nil hnq)
      | cons d ds => exact ⟨d, ds, rfl⟩
    have hnws := hbare hnq
    have hdrop : (' ' :: (d :: ds) ++ rest').dropWhile isWs =
        d :: (ds ++ rest') := by
      rw [List.cons_append, List.dropWhile_cons_of_pos (by decide),
        List.cons_append, List.dropWhile_cons_of_neg
          (by simp [hnws d (List.mem_cons_self d ds)])]
    have hwne : (' ' :: (d :: ds) ++ rest').takeWhile isWs ≠ [] := by
      rw [List.cons_append, List.takeWhile_cons_of_pos (by decide)]
      simp
    rw [matchItem_eqn_bare hwne hdrop (hq d (List.mem_cons_self d ds))]
    have hall : ∀ x ∈ d :: ds, (fun c => !isWs c && c != '\x22') x = true := by
      intro x hx
      simp [hnws x hx, hq x hx]
    have hsp : (d :: (ds ++ rest')).takeWhile (fun c => !isWs c && c != '\x22') = d :: ds ∧
        (d :: (ds ++ rest')).dropWhile (fun c => !isWs c && c != '\x22') = rest' := by
      rcases hrest with rfl | ⟨t, rfl⟩
      · rw [show (d :: (ds ++ []) : Str) = d :: ds by simp]
        constructor
        · rw [List.takeWhile_eq_self_iff.mpr]
          intro x hx
          simpa using hall x hx
        · rw [List.dropWhile_eq_nil_iff.mpr]
          intro x hx
          simpa using hall x hx
      · have := @takeWhile_split _ (fun c => !isWs c && c != '\x22')
          (d :: ds) t ' ' hall (by decide)
        simpa using this
    rw [hsp.1, hsp.2, if_neg (by simp)]

theorem itemLoop_nil (fuel : Nat) : itemLoop fuel [] = some [] := by
  cases fuel <;> rfl

theorem itemLoop_step {fuel : Nat} {r : Str} (hne : r ≠ []) :
    itemLoop (fuel + 1) r =
      (match matchItem r with
        | some (tok, rest) => (itemLoop fuel rest).map (tok :: ·)
        | none => none) := by
  cases r with
  | nil => exact absurd rfl hne
  | cons a l => rfl

/-- Fuel bound for the item loop: one matched item consumes at least one
character. -/
theorem matchItem_shrink {r tok rest : Str} (h : matchItem r = some (tok, rest)) :
    rest.length < r.length ∧
      rest.IsSuffix (r.dropWhile isWs) ∧
      (∀ x ∈ tok, x ≠ '\x22' ∧ x ∈ r.dropWhile isWs) := by
  have hlen := List.takeWhile_append_dropWhile (p := isWs) (l := r)
  rw [matchItem.eq_def] at h
  dsimp only at h
  split at h
  · cases h
  · rename_i hwne
    have hwlen : 0 < (r.takeWhile isWs).length := by
      cases hw : r.takeWhile isWs with
      | nil => exact absurd hw hwne
      | cons a l => simp [hw]
    have hdlen : (r.dropWhile isWs).length < r.length := by
      have : (r.takeWhile isWs).length + (r.dropWhile isWs).length = r.length := by
        rw [← List.length_append, hlen]
      omega
    split at h
    · rename_i r2 heq
      -- quoted token
      split at h
      · rename_i rr heq2
        have hsub : ('\x22' :: rr).IsSuffix r2 := by
          rw [← heq2]
          exact List.dropWhile_suffix _
        have hrr : rr.length < r2.length + 1 := by
          have := hsub.length_le
          simp at this
          omega
        cases h
        refine ⟨?_, ?_, ?_⟩
        · rw [heq] at hdlen
          simp at hdlen
          omega
        · rw [heq]
          exact ((List.suffix_cons '\x22' rest).trans hsub).trans
            (List.suffix_cons '\x22' r2)
        · intro x hx
          have hxq := List.mem_takeWhile_imp hx
          have hxr2 : x ∈ r2 := List.takeWhile_subset _ hx
          refine ⟨by simpa using hxq, ?_⟩
          rw [heq]
          exact List.mem_cons_of_mem _ hxr2
      · cases h
    · rename_i hnq
      split at h
      · cases h
      · rename_i htne
        cases h
        refine ⟨?_, ?_, ?_⟩
        · have := (List.dropWhile_suffix
            (p := fun c => !isWs c && c != '\x22') (l := r.dropWhile isWs)).length_le
          omega
        · exact List.dropWhile_suffix _
        · intro x hx
          have hxp := List.mem_takeWhile_imp hx
          simp only [Bool.and_eq_true, Bool.not_eq_true', bne_iff_ne] at hxp
          exact ⟨hxp.2, List.takeWhile_subset _ hx⟩

/-- Token chars of the item loop, relative to a property holding on the
region after its leading whitespace. -/
theorem itemLoop_mem {Q : Char → Prop} :
    ∀ (fuel : Nat) (r : Str) (toks : List Str),
      itemLoop fuel r = some toks →
      (∀ x ∈ r.dropWhile isWs, Q x) →
      ∀ t ∈ toks, ∀ x ∈ t, x ≠ '\x22' ∧ Q x := by
  intro fuel
  induction fuel with
  | zero =>
    intro r toks h hQ
    cases r with
    | nil =>
      rw [itemLoop_nil] at h
      cases h
      intro t ht
      cases ht
    | cons a l => cases h
  | succ fuel ih =>
    intro r toks h hQ
    cases r with
    | nil =>
      rw [itemLoop_nil] at h
      cases h
      intro t ht
      cases ht
    | cons a l =>
      rw [itemLoop_step (by simp)] at h
      split at h
      · rename_i tok rest hmi
        obtain ⟨hlen, hsuf, htok⟩ := matchItem_shrink hmi
        cases hil : itemLoop fuel rest with
        | none => rw [hil] at h; cases h
        | some toks' =>
          rw [hil] at h
          cases h
          intro t ht
          rcases List.mem_cons.mp ht with rfl | ht
          · intro x hx
            obtain ⟨hxq, hxm⟩ := htok x hx
            exact ⟨hxq, hQ x hxm⟩
          · refine ih rest toks' hil ?_ t ht
            intro x hx
            refine hQ x ?_
            exact hsuf.subset (List.dropWhile_suffix isWs |>.subset hx)
      · cases h

/-- Reconstruction of the item loop on a rendered choice sequence. -/
theorem itemLoop_compile :
    ∀ (chs : List Str) (fuel : Nat),
      ((chs.map compileChoiceItem).flatten).length ≤ fuel →
      (∀ ch ∈ chs, ∀ x ∈ ch, x ≠ '\x22') →
      (∀ ch ∈ chs, needsQuote ch = false → ∀ x ∈ ch, isWs x = false) →
      itemLoop fuel ((chs.map compileChoiceItem).flatten) = some chs := by
  intro chs
  induction chs with
  | nil =>
    intro fuel _ _ _
    exact itemLoop_nil fuel
  | cons ch rest ih =>
    intro fuel hfuel hq hbare
    obtain ⟨t0, ht0⟩ := compileChoiceItem_head ch
    have hflat : ((ch :: rest).map compileChoiceItem).flatten =
        compileChoiceItem ch ++ (rest.map compileChoiceItem).flatten := by
      simp
    obtain ⟨f, rfl⟩ : ∃ f, fuel = f + 1 := by
      refine ⟨fuel - 1, ?_⟩
      rw [hflat, ht0] at hfuel
      simp at hfuel
      omega
    rw [hflat, itemLoop_step (by rw [ht0]; simp)]
    rw [matchItem_compile (hq ch (List.mem_cons_self ch rest))
      (hbare ch (List.mem_cons_self ch rest)) (itemsFlat_head rest)]
    dsimp only
    rw [ih f ?_ (fun c hc => hq c (List.mem_cons_of_mem ch hc))
      (fun c hc => hbare c (List.mem_cons_of_mem ch hc))]
    · rfl
    · rw [hflat, ht0] at hfuel
      simp at hfuel ⊢
      omega

theorem dropWhile_cons_head {α : Type} {p : α → Bool} {l : List α} {c : α}
    {r : List α} (h : l.dropWhile p = c :: r) : p c = false := by
  have hh := List.head?_dropWhile_not p l
  rw [h] at hh
  simpa using hh

theorem contains_eq_false_iff {l : Str} {a : Char} :
    l.contains a = false ↔ ¬ a ∈ l := by
  induction l with
  | nil => simp
  | cons x xs ih =>
    simp [List.contains_cons, Bool.or_eq_false_iff, beq_eq_false_iff_ne, ih,
      not_or]

theorem choiceRegion_exact {w0 : Str} {c0 : Char} {t0 : Str}
    (hw : ∀ x ∈ w0, isWs x = true) (hwne : w0 ≠ [])
    (hc : isWs c0 = false) (hd : isDigitCh c0 = false)
    (hnl : ¬ '\n' ∈ t0) (hrev : t0.reverse.dropWhile isWs = t0.reverse) :
    choiceRegion (w0 ++ c0 :: (t0 ++ ['\x7d'])) = some (w0 ++ c0 :: t0) := by
  have hsp := @takeWhile_split _ isWs w0 (t0 ++ ['\x7d']) c0 hw hc
  simp only [choiceRegion]
  rw [hsp.1, hsp.2]
  split
  · rename_i c r2 heq
    injection heq with h1 h2
    subst h1
    subst h2
    rw [if_neg (by simp [hwne, hd]),
      show (t0 ++ ['\x7d']).reverse = '\x7d' :: t0.reverse by simp]
    split
    · rename_i rb heq2
      injection heq2 with h3 h4
      subst h4
      rw [hrev, List.reverse_reverse,
        if_neg (by rw [contains_eq_false_iff.mpr hnl]; exact Bool.false_ne_true)]
    · rename_i hno
      exact absurd rfl (hno t0.reverse)
  · rename_i heq
    cases heq

theorem choiceRegion_sound {r reg : Str} (h : choiceRegion r = some reg) :
    ∃ c0 a wt, reg = r.takeWhile isWs ++ c0 :: a ∧
      r.takeWhile isWs ≠ [] ∧ isWs c0 = false ∧ isDigitCh c0 = false ∧
      ¬ '\n' ∈ a ∧ (∀ x ∈ wt, isWs x = true) ∧
      r = r.takeWhile isWs ++ c0 :: (a ++ (wt ++ ['\x7d'])) ∧
      reg.dropWhile isWs = c0 :: a := by
  have hr := List.takeWhile_append_dropWhile (p := isWs) (l := r)
  rw [choiceRegion.eq_def] at h
  dsimp only at h
  split at h
  · rename_i c0 r2 heq
    split at h
    · cases h
    · rename_i hcond
      split at h
      · rename_i rb heq2
        split at h
        · cases h
        · rename_i hcont
          cases h
          have hc0 : isWs c0 = false := dropWhile_cons_head heq
          have hrb := List.takeWhile_append_dropWhile (p := isWs) (l := rb)
          have hr2 : r2 = (rb.dropWhile isWs).reverse ++
              ((rb.takeWhile isWs).reverse ++ ['\x7d']) := by
            have h3 : r2 = ('\x7d' :: rb).reverse := by
              rw [← heq2, List.reverse_reverse]
            have h4 : rb.reverse = (rb.dropWhile isWs).reverse ++
                (rb.takeWhile isWs).reverse := by
              conv_lhs => rw [← hrb]
              rw [List.reverse_append]
            rw [h3, List.reverse_cons, h4, List.append_assoc]
          refine ⟨c0, (rb.dropWhile isWs).reverse, (rb.takeWhile isWs).reverse,
            rfl, ?_, hc0, ?_, ?_, ?_, ?_, ?_⟩
          · intro hwnil
            exact hcond (Or.inl hwnil)
          · cases hD : isDigitCh c0 with
            | true => exact absurd (Or.inr hD) hcond
            | false => rfl
          · intro hmem
            cases hC : ((rb.dropWhile isWs).reverse).contains '\n' with
            | true => exact hcont hC
            | false => exact (contains_eq_false_iff.mp hC) hmem
          · intro x hx
            rw [List.mem_reverse] at hx
            exact List.mem_takeWhile_imp hx
          · rw [← hr2, ← heq]
            exact hr.symm
          · refine (takeWhile_split ?_ hc0).2
            intro x hx
            exact List.mem_takeWhile_imp hx
      · cases h
  · cases h

theorem matchChoice_sound {s : Str} {k : Char} {ds ds2 : Option Str} {reg : Str}
    (h : matchChoice s = some (k, ds, ds2, reg)) :
    (k = 'P' ∨ k = 'G') ∧
      ∃ u c0 a wt, s = (u ++ c0 :: (a ++ wt)) ++ ['\x7d'] ∧
        reg.dropWhile isWs = c0 :: a ∧ isWs c0 = false ∧ ¬ '\n' ∈ a := by
  rw [matchChoice.eq_def] at h
  split at h
  · rename_i k' r
    dsimp only at h
    split at h
    · rename_i hpg
      have build : ∀ (pre rr : Str), choiceRegion rr = some reg → r = pre ++ rr →
          ∃ u c0 a wt, ('\x7b' :: k' :: r : Str) = (u ++ c0 :: (a ++ wt)) ++ ['\x7d'] ∧
            reg.dropWhile isWs = c0 :: a ∧ isWs c0 = false ∧ ¬ '\n' ∈ a := by
        intro pre rr hcr hrpre
        obtain ⟨c0, a, wt, hreg, hwne, hc0, hd0, hnl, hwt, hrr, hregd⟩ :=
          choiceRegion_sound hcr
        refine ⟨'\x7b' :: k' :: (pre ++ rr.takeWhile isWs), c0, a, wt, ?_, hregd, hc0, hnl⟩
        conv_lhs => rw [hrpre, hrr]
        simp
      split at h
      · cases h
      · split at h
        · -- no digits after the whitespace: region parsed from r itself
          cases hcr : choiceRegion r with
          | none => rw [hcr] at h; cases h
          | some reg' =>
            rw [hcr] at h
            cases h
            obtain ⟨u, hb⟩ := build [] r hcr (by simp)
            exact ⟨hpg, u, hb⟩
        · -- digits present: the index path, or the skipped-group back-off
          split at h
          case h_2 hinner =>
            -- back-off: region parsed from r itself, as with no digits
            cases hcr : choiceRegion r with
            | none => rw [hcr] at h; cases h
            | some reg' =>
              rw [hcr] at h
              cases h
              obtain ⟨u, hb⟩ := build [] r hcr (by simp)
              exact ⟨hpg, u, hb⟩
          case h_1 res hinner =>
            injection h with h
            subst h
            split at hinner
            · rename_i r3 heq
              split at hinner
              · cases hinner
              · cases hcr : choiceRegion ((r3.dropWhile isUniDigit)) with
                | none => rw [hcr] at hinner; cases hinner
                | some reg' =>
                  rw [hcr] at hinner
                  cases hinner
                  have hr3 : r = (r.takeWhile isWs ++
                      ((r.dropWhile isWs).takeWhile isUniDigit ++ ':' ::
                        r3.takeWhile isUniDigit)) ++ r3.dropWhile isUniDigit := by
                    conv_lhs => rw [← List.takeWhile_append_dropWhile (p := isWs) (l := r)]
                    conv_lhs => rw [← List.takeWhile_append_dropWhile (p := isUniDigit)
                      (l := r.dropWhile isWs)]
                    rw [heq]
                    conv_lhs => rw [← List.takeWhile_append_dropWhile (p := isUniDigit)
                      (l := r3)]
                    simp
                  obtain ⟨u, hb⟩ := build _ _ hcr hr3
                  exact ⟨hpg, u, hb⟩
            · rename_i hne2
              cases hcr : choiceRegion ((r.dropWhile isWs).dropWhile isUniDigit) with
              | none => rw [hcr] at hinner; cases hinner
              | some reg' =>
                rw [hcr] at hinner
                cases hinner
                have hr2 : r = (r.takeWhile isWs ++
                    (r.dropWhile isWs).takeWhile isUniDigit) ++
                      (r.dropWhile isWs).dropWhile isUniDigit := by
                  conv_lhs => rw [← List.takeWhile_append_dropWhile (p := isWs) (l := r)]
                  conv_lhs => rw [← List.takeWhile_append_dropWhile (p := isUniDigit)
                    (l := r.dropWhile isWs)]
                  simp
                obtain ⟨u, hb⟩ := build _ _ hcr hr2
                exact ⟨hpg, u, hb⟩
    · cases h
  · cases h

theorem itemLoop_ne_nil {fuel : Nat} {x : Char} {l : Str} {toks : List Str}
    (h : itemLoop fuel (x :: l) = some toks) : toks ≠ [] := by
  cases fuel with
  | zero => cases h
  | succ fuel =>
    rw [itemLoop_step (by simp)] at h
    split at h
    · rename_i tok rest hmi
      cases hil : itemLoop fuel rest with
      | none => rw [hil] at h; cases h
      | some toks' =>
        rw [hil] at h
        cases h
        simp
    · cases h

theorem choiceParse_sound {s : Str} {cl : ChoiceList}
    (h : ChoiceList.parse s = some cl)
    (hspan : ∀ x ∈ s.dropLast, x ≠ '\x7d') : ChoiceInv cl := by
  rw [ChoiceList.parse.eq_def] at h
  split at h
  · rename_i k ds ds2 reg hmc
    obtain ⟨hpg, u, c0, a, wt, hs, hregd, hc0, hnl⟩ := matchChoice_sound hmc
    cases hil : itemLoop reg.length reg with
    | none => rw [hil] at h; cases h
    | some toks =>
      rw [hil] at h
      cases h
      have hdrop : s.dropLast = u ++ c0 :: (a ++ wt) := by
        rw [hs, List.dropLast_concat]
      have hQ : ∀ x ∈ reg.dropWhile isWs, x ≠ '\x7d' ∧ x ≠ '\n' := by
        intro x hx
        rw [hregd] at hx
        rcases List.mem_cons.mp hx with rfl | hx
        · refine ⟨?_, ?_⟩
          · refine hspan x ?_
            rw [hdrop]
            exact List.mem_append_right u (List.mem_cons_self _ _)
          · intro hxe
            rw [hxe] at hc0
            exact absurd hc0 (by decide)
        · refine ⟨?_, fun hxe => hnl (hxe ▸ hx)⟩
          refine hspan x ?_
          rw [hdrop]
          refine List.mem_append_right u (List.mem_cons_of_mem c0 ?_)
          exact List.mem_append_left wt hx
      have hmem := itemLoop_mem reg.length reg toks hil hQ
      refine ⟨?_, ?_, ?_, ?_, ?_⟩
      · rcases hpg with rfl | rfl
        · exact Or.inl rfl
        · exact Or.inr rfl
      · show toks ≠ []
        have hregne : reg ≠ [] := by
          intro hr
          rw [hr] at hregd
          cases hregd
        cases hreg : reg with
        | nil => exact absurd hreg hregne
        | cons x l =>
          rw [hreg] at hil
          exact itemLoop_ne_nil hil
      · show ∀ i, ds.bind parseUsize = some i → i ≤ usizeMax
        intro i hi
        cases ds with
        | none => cases hi
        | some d => exact parseUsize_le hi
      · show ∀ j, ds2.bind parseUsize = some j → j ≤ usizeMax
        intro j hj
        cases ds2 with
        | none => cases hj
        | some d => exact parseUsize_le hj
      · show ∀ ch ∈ toks, ∀ x ∈ ch, x ≠ '\x22' ∧ x ≠ '\x7d' ∧ x ≠ '\n'
        intro ch hch x hx
        obtain ⟨hq, hQx⟩ := hmem ch hch x hx
        exact ⟨hq, hQx⟩
  · cases h

theorem itemsFlat_no_nl {chs : List Str}
    (hinv : ∀ ch ∈ chs, ∀ x ∈ ch, x ≠ '\n') :
    ∀ x ∈ (chs.map compileChoiceItem).flatten, x ≠ '\n' := by
  induction chs with
  | nil => intro x hx; cases hx
  | cons ch rest ih =>
    intro x hx
    rw [show ((ch :: rest).map compileChoiceItem).flatten =
      compileChoiceItem ch ++ (rest.map compileChoiceItem).flatten by simp] at hx
    rcases List.mem_append.mp hx with hx | hx
    · have hchx : ∀ y ∈ ch, y ≠ '\n' := hinv ch (List.mem_cons_self ch rest)
      cases hnq : needsQuote ch with
      | true =>
        rw [compileChoiceItem_quote hnq] at hx
        rcases List.mem_cons.mp hx with rfl | hx
        · decide
        · rcases List.mem_cons.mp hx with rfl | hx
          · decide
          · rcases List.mem_append.mp hx with hx | hx
            · exact hchx x hx
            · rw [List.mem_singleton] at hx
              subst hx
              decide
      | false =>
        rw [compileChoiceItem_bare hnq] at hx
        rcases List.mem_cons.mp hx with rfl | hx
        · decide
        · exact hchx x hx
    · exact ih (fun c hc => hinv c (List.mem_cons_of_mem ch hc)) x hx

theorem itemsFlat_last {chs : List Str} (hne : chs ≠ [])
    (hbare : ∀ ch ∈ chs, needsQuote ch = false → ∀ x ∈ ch, isWs x = false) :
    ∃ init lc, (chs.map compileChoiceItem).flatten = init ++ [lc] ∧
      isWs lc = false := by
  induction chs with
  | nil => exact absurd rfl hne
  | cons ch rest ih =>
    cases hrest : rest with
    | nil =>
      subst hrest
      rw [show (([ch]).map compileChoiceItem).flatten = compileChoiceItem ch by simp]
      cases hnq : needsQuote ch with
      | true =>
        refine ⟨' ' :: '\x22' :: ch, '\x22', ?_, by decide⟩
        rw [compileChoiceItem_quote hnq]
        simp
      | false =>
        obtain ⟨init1, lc, hlc⟩ := List.eq_nil_or_concat ch |>.resolve_left
          (bare_ne_nil hnq)
        refine ⟨' ' :: init1, lc, ?_, ?_⟩
        · rw [compileChoiceItem_bare hnq, hlc]
          simp
        · exact hbare ch (List.mem_cons_self _ _) hnq lc (by rw [hlc]; simp)
    | cons r1 r2 =>
      subst hrest
      obtain ⟨init, lc, hflat, hlc⟩ := ih (by simp)
        (fun c hc => hbare c (List.mem_cons_of_mem ch hc))
      refine ⟨compileChoiceItem ch ++ init, lc, ?_, hlc⟩
      rw [show ((ch :: r1 :: r2).map compileChoiceItem).flatten =
        compileChoiceItem ch ++ ((r1 :: r2).map compileChoiceItem).flatten by simp,
        hflat, List.append_assoc]

theorem cons_cons_eq_concat {α : Type} {a b : α} {t0 init : List α} {lc : α}
    (h : a :: b :: t0 = init ++ [lc]) (hne : t0 ≠ []) :
    ∃ t1, t0 = t1 ++ [lc] := by
  cases init with
  | nil =>
    injection h with h1 h2
    cases h2
  | cons i1 irest =>
    injection h with h1 h2
    cases irest with
    | nil =>
      injection h2 with h3 h4
      exact absurd h4 hne
    | cons i2 ir2 =>
      injection h2 with h3 h4
      exact ⟨ir2, h4⟩

theorem itemsFlat_decomp {ch1 : Str} {crest : List Str}
    (hfq : needsQuote ch1 = true ∨ (∃ d ds, ch1 = d :: ds ∧ isUniDigit d = false))
    (hbare : ∀ ch ∈ ch1 :: crest, needsQuote ch = false → ∀ x ∈ ch, isWs x = false) :
    ∃ c0 t0, ((ch1 :: crest).map compileChoiceItem).flatten = ' ' :: c0 :: t0 ∧
      isWs c0 = false ∧ isUniDigit c0 = false ∧
      (t0 = [] ∨ ∃ t1 lc, t0 = t1 ++ [lc] ∧ isWs lc = false) := by
  have hflat : ((ch1 :: crest).map compileChoiceItem).flatten =
      compileChoiceItem ch1 ++ (crest.map compileChoiceItem).flatten := by simp
  obtain ⟨c0, t0, hshape, hc0w, hc0d⟩ :
      ∃ c0 t0, ((ch1 :: crest).map compileChoiceItem).flatten = ' ' :: c0 :: t0 ∧
        isWs c0 = false ∧ isUniDigit c0 = false := by
    cases hnq : needsQuote ch1 with
    | true =>
      refine ⟨'\x22', (ch1 ++ ['\x22']) ++ (crest.map compileChoiceItem).flatten,
        ?_, by decide, by decide⟩
      rw [hflat, compileChoiceItem_quote hnq]
      simp
    | false =>
      obtain ⟨d, ds, rfl, hd⟩ : ∃ d ds, ch1 = d :: ds ∧ isUniDigit d = false := by
        rcases hfq with hfq | hfq
        · rw [hfq] at hnq
          cases hnq
        · exact hfq
      refine ⟨d, ds ++ (crest.map compileChoiceItem).flatten, ?_, ?_, hd⟩
      · rw [hflat, compileChoiceItem_bare hnq]
        simp
      · exact hbare _ (List.mem_cons_self _ _) hnq d (List.mem_cons_self d ds)
  obtain ⟨init, lc, hlast, hlcw⟩ := @itemsFlat_last (ch1 :: crest)
    (by simp) hbare
  refine ⟨c0, t0, hshape, hc0w, hc0d, ?_⟩
  cases ht0 : t0 with
  | nil => exact Or.inl rfl
  | cons y ys =>
    rw [hshape, ht0] at hlast
    obtain ⟨t1, ht1⟩ := cons_cons_eq_concat hlast (by simp)
    exact Or.inr ⟨t1, lc, ht1, hlcw⟩

theorem matchChoice_compile {k : Char} (hk : k = 'P' ∨ k = 'G')
    {ir isr : Option Nat} {flat : Str} {c0 : Char} {t0 : Str}
    (hflat : flat = ' ' :: c0 :: t0) (hc0w : isWs c0 = false)
    (hc0d : isUniDigit c0 = false)
    (hregion : choiceRegion (flat ++ ['\x7d']) = some flat)
    (hgc : isr.isSome = true → ir.isSome = true) :
    matchChoice ('\x7b' :: k :: (refPart ir isr ++ (flat ++ ['\x7d']))) =
      some (k, ir.map toDec, isr.map toDec, flat) := by
  have hflatHead : flat ++ ['\x7d'] = ' ' :: (c0 :: (t0 ++ ['\x7d'])) := by
    rw [hflat]
    simp
  simp only [matchChoice]
  rw [if_pos hk]
  cases ir with
  | none =>
    obtain rfl : isr = none := by
      cases isr with
      | none => rfl
      | some j => exact absurd (hgc rfl) (by simp)
    rw [show refPart none none ++ (flat ++ ['\x7d']) = flat ++ ['\x7d'] from by
      rw [show refPart none none = [] from rfl, List.nil_append]]
    rw [hflatHead, List.takeWhile_cons_of_pos (by decide),
      List.takeWhile_cons_of_neg (by simp [hc0w]),
      List.dropWhile_cons_of_pos (by decide),
      List.dropWhile_cons_of_neg (by simp [hc0w]),
      List.takeWhile_cons_of_neg (by simp [hc0d])]
    rw [if_neg (by simp), if_pos rfl, ← hflatHead, hregion]
    rfl
  | some i =>
    obtain ⟨dd, dtl, hdd⟩ : ∃ dd dtl, toDec i = dd :: dtl := by
      cases hd : toDec i with
      | nil => exact absurd hd toDec_ne_nil
      | cons a b => exact ⟨a, b, rfl⟩
    have hddDig : isDigitCh dd = true :=
      toDec_digits (n := i) dd (by rw [hdd]; exact List.mem_cons_self _ _)
    have hr : ∀ tail : Str, refPart (some i) isr ++ tail =
        ' ' :: (toDec i ++ (subPart isr ++ tail)) := by
      intro tail
      rw [show refPart (some i) isr = ' ' :: (toDec i ++ subPart isr) from rfl]
      simp
    have hTW : ∀ rest : Str,
        (' ' :: (toDec i ++ rest) : Str).takeWhile isWs = [' '] := by
      intro rest
      rw [List.takeWhile_cons_of_pos (by decide), hdd, List.cons_append,
        List.takeWhile_cons_of_neg (by simp [isDigitCh_no_ws hddDig])]
    have hDW : ∀ rest : Str,
        (' ' :: (toDec i ++ rest) : Str).dropWhile isWs = toDec i ++ rest := by
      intro rest
      rw [List.dropWhile_cons_of_pos (by decide)]
      conv_lhs => rw [hdd, List.cons_append,
        List.dropWhile_cons_of_neg (by simp [isDigitCh_no_ws hddDig])]
      rw [← List.cons_append, ← hdd]
    cases isr with
    | none =>
      rw [hr, show subPart none = [] from rfl, List.nil_append, hTW, hDW,
        hflatHead]
      have hdigSp := @takeWhile_split _ isUniDigit (toDec i)
        (c0 :: (t0 ++ ['\x7d'])) ' ' toDec_uniDigits (by decide)
      rw [hdigSp.1, hdigSp.2, if_neg (by simp), if_neg toDec_ne_nil]
      split
      case h_1 res hinner =>
        split at hinner
        · rename_i r3 heq
          injection heq with h1 h2
          exact absurd h1 (by decide)
        · rw [← hflatHead, hregion] at hinner
          simp only [Option.map_some'] at hinner
          exact hinner.symm
      case h_2 hinner =>
        exfalso
        split at hinner
        · rename_i r3 heq
          injection heq with h1 h2
          exact absurd h1 (by decide)
        · rw [← hflatHead, hregion] at hinner
          cases hinner
    | some j =>
      rw [hr, show subPart (some j) = ':' :: toDec j from rfl]
      rw [show (':' :: toDec j : Str) ++ (flat ++ ['\x7d']) =
        ':' :: (toDec j ++ (flat ++ ['\x7d'])) from by simp]
      rw [hTW, hDW]
      have hdigSp := @takeWhile_split _ isUniDigit (toDec i)
        (toDec j ++ (flat ++ ['\x7d'])) ':' toDec_uniDigits (by decide)
      have hdigSp2 := @takeWhile_split _ isUniDigit (toDec j)
        (c0 :: (t0 ++ ['\x7d'])) ' ' toDec_uniDigits (by decide)
      rw [hdigSp.1, hdigSp.2, if_neg (by simp), if_neg toDec_ne_nil]
      split
      case h_1 res hinner =>
        split at hinner
        · rename_i r3 heq
          injection heq with h1 h2
          subst h2
          rw [hflatHead] at hinner
          rw [hdigSp2.1, hdigSp2.2, if_neg toDec_ne_nil, ← hflatHead,
            hregion] at hinner
          simp only [Option.map_some'] at hinner
          exact hinner.symm
        · rename_i hno
          exact absurd rfl (hno (toDec j ++ (flat ++ ['\x7d'])))
      case h_2 hinner =>
        exfalso
        split at hinner
        · rename_i r3 heq
          injection heq with h1 h2
          subst h2
          rw [hflatHead] at hinner
          rw [hdigSp2.1, hdigSp2.2, if_neg toDec_ne_nil, ← hflatHead,
            hregion] at hinner
          cases hinner
        · rename_i hno
          exact absurd rfl (hno (toDec j ++ (flat ++ ['\x7d'])))

theorem choice_roundtrip {cl : ChoiceList} (hinv : ChoiceInv cl)
    (hgood : goodChoice cl = true) :
    ChoiceList.parse cl.compile = some cl := by
  obtain ⟨nm, ir, isr, chs⟩ := cl
  obtain ⟨hname, hchne, hile, hjle, hchars⟩ := hinv
  simp only at hname hchne hile hjle hchars
  simp only [goodChoice, Bool.and_eq_true] at hgood
  obtain ⟨⟨⟨hgA, hgB⟩, hgC⟩, hgD⟩ := hgood
  obtain ⟨ch1, crest, rfl⟩ : ∃ ch1 crest, chs = ch1 :: crest := by
    cases chs with
    | nil => exact absurd rfl hchne
    | cons a b => exact ⟨a, b, rfl⟩
  have hq : ∀ ch ∈ ch1 :: crest, ∀ x ∈ ch, x ≠ '\x22' :=
    fun ch hch x hx => (hchars ch hch x hx).1
  have hnlch : ∀ ch ∈ ch1 :: crest, ∀ x ∈ ch, x ≠ '\n' :=
    fun ch hch x hx => (hchars ch hch x hx).2.2
  have hbareAll : ∀ ch ∈ ch1 :: crest, needsQuote ch = false →
      ∀ x ∈ ch, isWs x = false := by
    intro ch hch hnq x hx
    have := List.all_eq_true.mp hgB ch hch
    simp only [hnq, Bool.false_or] at this
    have := List.all_eq_true.mp this x hx
    simpa using this
  have hfq : needsQuote ch1 = true ∨
      (∃ d ds, ch1 = d :: ds ∧ isUniDigit d = false) := by
    cases hnq : needsQuote ch1 with
    | true => exact Or.inl rfl
    | false =>
      obtain ⟨d, ds, rfl⟩ : ∃ d ds, ch1 = d :: ds := by
        cases hc : ch1 with
        | nil => exact absurd hc (bare_ne_nil hnq)
        | cons a b => exact ⟨a, b, rfl⟩
      refine Or.inr ⟨d, ds, rfl, ?_⟩
      dsimp only at hgA
      rw [hnq, Bool.false_or] at hgA
      simpa using hgA
  obtain ⟨c0, t0, hflat, hc0w, hc0d, hlastp⟩ := itemsFlat_decomp hfq hbareAll
  have hnlt0 : ¬ '\n' ∈ t0 := by
    intro hmem
    refine itemsFlat_no_nl hnlch '\n' ?_ rfl
    rw [hflat]
    exact List.mem_cons_of_mem _ (List.mem_cons_of_mem _ hmem)
  have hrev : t0.reverse.dropWhile isWs = t0.reverse := by
    rcases hlastp with rfl | ⟨t1, lc, rfl, hlcw⟩
    · rfl
    · rw [List.reverse_append, List.reverse_singleton, List.singleton_append,
        List.dropWhile_cons_of_neg (by simp [hlcw])]
  have hregion : choiceRegion
      (((ch1 :: crest).map compileChoiceItem).flatten ++ ['\x7d']) =
      some ((ch1 :: crest).map compileChoiceItem).flatten := by
    rw [hflat,
      show (' ' :: c0 :: t0 : Str) ++ ['\x7d'] = [' '] ++ c0 :: (t0 ++ ['\x7d'])
        from by simp]
    rw [choiceRegion_exact (by intro x hx; simp at hx; subst hx; decide)
      (by simp) hc0w (isDigitCh_of_not_uni hc0d) hnlt0 hrev]
    simp
  have hloop : itemLoop (((ch1 :: crest).map compileChoiceItem).flatten).length
      ((ch1 :: crest).map compileChoiceItem).flatten = some (ch1 :: crest) :=
    itemLoop_compile (ch1 :: crest) _ le_rfl hq hbareAll
  have hgc : isr.isSome = true → ir.isSome = true := by
    intro hj
    cases ir with
    | some i => rfl
    | none =>
      cases isr with
      | none => cases hj
      | some j =>
        rw [show (some j : Option Nat).isNone = false from rfl,
          show (none : Option Nat).isSome = false from rfl] at hgC
        cases hgC
  have hcompile : ∀ k : Char, (⟨[k], ir, isr, ch1 :: crest⟩ : ChoiceList).compile =
      '\x7b' :: k :: (refPart ir isr ++
        (((ch1 :: crest).map compileChoiceItem).flatten ++ ['\x7d'])) := by
    intro k
    rw [ChoiceList.compile]
    simp
  have main : ∀ k : Char, (k = 'P' ∨ k = 'G') →
      ChoiceList.parse ('\x7b' :: k :: (refPart ir isr ++
        (((ch1 :: crest).map compileChoiceItem).flatten ++ ['\x7d']))) =
        some ⟨[k], ir, isr, ch1 :: crest⟩ := by
    intro k hk
    rw [ChoiceList.parse.eq_def,
      matchChoice_compile hk hflat hc0w hc0d hregion hgc]
    dsimp only
    rw [hloop, Option.map_some']
    have hbind : ∀ (o : Option Nat), (∀ n, o = some n → n ≤ usizeMax) →
        (o.map toDec).bind parseUsize = o := by
      intro o ho
      cases o with
      | none => rfl
      | some n =>
        show parseUsize (toDec n) = some n
        exact parseUsize_toDec (ho n rfl)
    rw [hbind ir hile, hbind isr hjle]
  rcases hname with rfl | rfl
  · rw [hcompile 'P']
    exact main 'P' (Or.inl rfl)
  · rw [hcompile 'G']
    exact main 'G' (Or.inr rfl)

/-- The rendered token part of a nonempty choice sequence is nonempty and
starts with a space. -/
theorem itemsFlat_head_of_ne {ch1 : Str} {crest : List Str} :
    ∃ t, ((ch1 :: crest).map compileChoiceItem).flatten = ' ' :: t := by
  rcases itemsFlat_head (ch1 :: crest) with h | h
  · obtain ⟨t, ht⟩ := compileChoiceItem_head ch1
    rw [show ((ch1 :: crest).map compileChoiceItem).flatten =
      compileChoiceItem ch1 ++ (crest.map compileChoiceItem).flatten by simp,
      ht] at h
    cases h
  · exact h

/-- A compiled choice list never matches the command grammar: the kind
letter is followed by a space, which can continue neither a command name
nor the command tail. -/
theorem choice_compile_not_command {cl : ChoiceList} (hinv : ChoiceInv cl) :
    StringCommand.parse cl.compile = none := by
  obtain ⟨nm, ir, isr, chs⟩ := cl
  obtain ⟨hname, hchne, -, -, -⟩ := hinv
  simp only at hname hchne
  obtain ⟨ch1, crest, rfl⟩ : ∃ ch1 crest, chs = ch1 :: crest := by
    cases chs with
    | nil => exact absurd rfl hchne
    | cons a b => exact ⟨a, b, rfl⟩
  obtain ⟨ft, hft⟩ := @itemsFlat_head_of_ne ch1 crest
  have hrest : ∃ rest2 : Str, refPart ir isr ++
      (((ch1 :: crest).map compileChoiceItem).flatten ++ ['\x7d']) =
      ' ' :: rest2 := by
    cases ir with
    | some i =>
      exact ⟨toDec i ++ subPart isr ++
        (((ch1 :: crest).map compileChoiceItem).flatten ++ ['\x7d']), by
        rw [show refPart (some i) isr = ' ' :: (toDec i ++ subPart isr) from rfl]
        simp⟩
    | none =>
      refine ⟨ft ++ ['\x7d'], ?_⟩
      rw [show refPart none isr = [] from rfl, List.nil_append, hft]
      simp
  obtain ⟨rest2, hrest2⟩ := hrest
  have main : ∀ k : Char, isUpperCh k = true →
      StringCommand.parse ('\x7b' :: k :: (' ' :: rest2)) = none := by
    intro k hku
    rw [commandParse_nodigit (List.takeWhile_cons_of_neg
        (by simp [isUniDigit_false_of_upper hku])),
      cmdName_upper hku, List.takeWhile_cons_of_neg (by decide),
      List.dropWhile_cons_of_neg (by decide),
      cmdTail_ne (by decide) (by simp)]
  rcases hname with rfl | rfl
  · rw [show ChoiceList.compile ⟨['P'], ir, isr, ch1 :: crest⟩ =
      '\x7b' :: 'P' :: (refPart ir isr ++
        (((ch1 :: crest).map compileChoiceItem).flatten ++ ['\x7d'])) from by
      rw [ChoiceList.compile]; simp]
    rw [hrest2]
    exact main 'P' (by decide)
  · rw [show ChoiceList.compile ⟨['G'], ir, isr, ch1 :: crest⟩ =
      '\x7b' :: 'G' :: (refPart ir isr ++
        (((ch1 :: crest).map compileChoiceItem).flatten ++ ['\x7d'])) from by
      rw [ChoiceList.compile]; simp]
    rw [hrest2]
    exact main 'G' (by decide)

theorem gender_parse_ne_k {k : Char} {r : Str} (hk : k ≠ 'G') :
    GenderDefinition.parse ('\x7b' :: k :: r) = none := by
  rw [GenderDefinition.parse.eq_def]
  split
  · rename_i heq
    injection heq with h1 h2
    injection h2 with h3 h4
    exact absurd h3 hk
  · rfl

theorem gender_parse_no_eq {r : Str} {c : Char} {r2 : Str}
    (hdrop : r.dropWhile isWs = c :: r2) (hc : c ≠ '=') :
    GenderDefinition.parse ('\x7b' :: 'G' :: r) = none := by
  simp only [GenderDefinition.parse]
  rw [hdrop]
  split
  · rename_i heq
    injection heq with h1 h2
    exact absurd h1 hc
  · rfl

/-- The gender grammar's `(\w+)\x7d$` check fails on a rendered token
region unless the region is a single all-word token ending the span. -/
theorem wordCheck_fail {ds flatRest : Str}
    (hds : ∀ x ∈ ds, x ≠ '\x7d')
    (hflat : flatRest = [] ∨ ∃ t, flatRest = ' ' :: t)
    (hnot : ¬(ds ≠ [] ∧ (∀ x ∈ ds, isWordCh x = true) ∧ flatRest = [])) :
    ¬((ds ++ (flatRest ++ ['\x7d'])).takeWhile isWordCh ≠ [] ∧
      (ds ++ (flatRest ++ ['\x7d'])).dropWhile isWordCh = ['\x7d']) := by
  intro ⟨h1, h2⟩
  cases hdd : ds.dropWhile isWordCh with
  | nil =>
    have hall : ∀ x ∈ ds, isWordCh x = true := by
      intro x hx
      have := List.dropWhile_eq_nil_iff.mp hdd x hx
      simpa using this
    rcases hflat with rfl | ⟨t, rfl⟩
    · by_cases hdsne : ds = []
      · subst hdsne
        rw [List.nil_append, List.nil_append,
          List.takeWhile_cons_of_neg (by decide)] at h1
        exact h1 rfl
      · exact hnot ⟨hdsne, hall, rfl⟩
    · have hsp := @takeWhile_split _ isWordCh ds
        (t ++ ['\x7d']) ' ' hall (by decide)
      rw [show ds ++ (' ' :: t ++ ['\x7d']) = ds ++ ' ' :: (t ++ ['\x7d']) from
        by simp] at h2
      rw [hsp.2] at h2
      injection h2 with h3 h4
      exact absurd h3 (by decide)
  | cons x dr =>
    have hxw : isWordCh x = false := dropWhile_cons_head hdd
    have hxds : x ∈ ds := List.dropWhile_subset _ (by rw [hdd]; simp)
    have hsplit : ds = ds.takeWhile isWordCh ++ x :: dr := by
      conv_lhs => rw [← List.takeWhile_append_dropWhile (p := isWordCh) (l := ds)]
      rw [hdd]
    have hall : ∀ y ∈ ds.takeWhile isWordCh, isWordCh y = true := by
      intro y hy
      simpa using List.mem_takeWhile_imp hy
    rw [show ds ++ (flatRest ++ ['\x7d']) =
      ds.takeWhile isWordCh ++ (x :: (dr ++ (flatRest ++ ['\x7d']))) from by
        conv_lhs => rw [hsplit]
        simp] at h2
    rw [(takeWhile_split hall (by simp [hxw])).2] at h2
    injection h2 with h3 h4
    exact absurd h3 (hds x hxds)

/-- Under the `goodChoice` side condition, a compiled choice list never
matches the gender grammar, so the dispatch reaches the choice grammar. -/
theorem choice_compile_not_gender {cl : ChoiceList} (hinv : ChoiceInv cl)
    (hgood : goodChoice cl = true) :
    GenderDefinition.parse cl.compile = none := by
  obtain ⟨nm, ir, isr, chs⟩ := cl
  obtain ⟨hname, hchne, -, -, hchars⟩ := hinv
  simp only at hname hchne hchars
  simp only [goodChoice, Bool.and_eq_true] at hgood
  obtain ⟨⟨⟨hgA, hgB⟩, hgC⟩, hgD⟩ := hgood
  obtain ⟨ch1, crest, rfl⟩ : ∃ ch1 crest, chs = ch1 :: crest := by
    cases chs with
    | nil => exact absurd rfl hchne
    | cons a b => exact ⟨a, b, rfl⟩
  have hbareAll : ∀ ch ∈ ch1 :: crest, needsQuote ch = false →
      ∀ x ∈ ch, isWs x = false := by
    intro ch hch hnq x hx
    have := List.all_eq_true.mp hgB ch hch
    simp only [hnq, Bool.false_or] at this
    have := List.all_eq_true.mp this x hx
    simpa using this
  have hcompile : ∀ k : Char, (⟨[k], ir, isr, ch1 :: crest⟩ : ChoiceList).compile =
      '\x7b' :: k :: (refPart ir isr ++
        (((ch1 :: crest).map compileChoiceItem).flatten ++ ['\x7d'])) := by
    intro k
    rw [ChoiceList.compile]
    simp
  rcases hname with rfl | rfl
  · rw [hcompile 'P']
    exact gender_parse_ne_k (by decide)
  rw [hcompile 'G']
  cases ir with
  | some i =>
    obtain ⟨dd, dtl, hdd⟩ : ∃ dd dtl, toDec i = dd :: dtl := by
      cases hd : toDec i with
      | nil => exact absurd hd toDec_ne_nil
      | cons a b => exact ⟨a, b, rfl⟩
    have hddDig : isDigitCh dd = true :=
      toDec_digits (n := i) dd (by rw [hdd]; exact List.mem_cons_self _ _)
    refine @gender_parse_no_eq _ dd
      (dtl ++ (subPart isr ++
        (((ch1 :: crest).map compileChoiceItem).flatten ++ ['\x7d']))) ?_
      (ne_of_class hddDig (by decide))
    rw [show refPart (some i) isr = ' ' :: (toDec i ++ subPart isr) from rfl]
    rw [List.cons_append, List.dropWhile_cons_of_pos (by decide), hdd]
    rw [show (dd :: dtl ++ subPart isr : Str) ++
      (((ch1 :: crest).map compileChoiceItem).flatten ++ ['\x7d']) =
      dd :: (dtl ++ (subPart isr ++
        (((ch1 :: crest).map compileChoiceItem).flatten ++ ['\x7d']))) from by simp]
    rw [List.dropWhile_cons_of_neg (by simp [isDigitCh_no_ws hddDig])]
  | none =>
    rw [show refPart none isr = [] from rfl, List.nil_append]
    -- the region begins with the first rendered choice
    cases hnq : needsQuote ch1 with
    | true =>
      -- first token is quoted: the character after the whitespace is a quote
      refine @gender_parse_no_eq _ '\x22'
        ((ch1 ++ ['\x22']) ++
          ((crest.map compileChoiceItem).flatten ++ ['\x7d'])) ?_ (by decide)
      rw [show ((ch1 :: crest).map compileChoiceItem).flatten =
        compileChoiceItem ch1 ++ (crest.map compileChoiceItem).flatten by simp,
        compileChoiceItem_quote hnq]
      rw [show (' ' :: '\x22' :: (ch1 ++ ['\x22']) ++
        (crest.map compileChoiceItem).flatten : Str) ++ ['\x7d'] =
        ' ' :: '\x22' :: ((ch1 ++ ['\x22']) ++
          ((crest.map compileChoiceItem).flatten ++ ['\x7d'])) from by simp]
      rw [List.dropWhile_cons_of_pos (by decide),
        List.dropWhile_cons_of_neg (by decide)]
    | false =>
      obtain ⟨e, es, rfl⟩ : ∃ e es, ch1 = e :: es := by
        cases hc : ch1 with
        | nil => exact absurd hc (bare_ne_nil hnq)
        | cons a b => exact ⟨a, b, rfl⟩
      have hch1ws : ∀ x ∈ e :: es, isWs x = false :=
        hbareAll _ (List.mem_cons_self _ _) hnq
      have hdropFlat : (((e :: es) :: crest).map compileChoiceItem).flatten ++
          ['\x7d'] = ' ' :: (e :: (es ++
            ((crest.map compileChoiceItem).flatten ++ ['\x7d']))) := by
        rw [show (((e :: es) :: crest).map compileChoiceItem).flatten =
          compileChoiceItem (e :: es) ++ (crest.map compileChoiceItem).flatten
          by simp, compileChoiceItem_bare hnq]
        simp
      by_cases heq : e = '='
      · subst heq
        -- the dangerous shape: first bare choice starts with `=`
        have hdrop : ((((('=') :: es) :: crest).map compileChoiceItem).flatten ++
            ['\x7d']).dropWhile isWs = '=' :: (es ++
              ((crest.map compileChoiceItem).flatten ++ ['\x7d'])) := by
          rw [hdropFlat, List.dropWhile_cons_of_pos (by decide),
            List.dropWhile_cons_of_neg (by decide)]
        rw [gender_parse_eqn hdrop]
        rw [if_neg]
        by_cases hesne : es = []
        · subst hesne
          -- sole `=` choice: the tag region starts after the separator
          rw [List.nil_append]
          rcases itemsFlat_head crest with hcr | ⟨t, hcr⟩
          · rw [hcr, List.nil_append,
              List.dropWhile_cons_of_neg (by decide)]
            intro ⟨h1, h2⟩
            rw [List.takeWhile_cons_of_neg (by decide)] at h1
            exact h1 rfl
          · -- a second token follows the `=`
            obtain ⟨ch2, crest2, rfl⟩ : ∃ ch2 crest2, crest = ch2 :: crest2 := by
              cases hc : crest with
              | nil => rw [hc] at hcr; cases hcr
              | cons a b => exact ⟨a, b, rfl⟩
            cases hnq2 : needsQuote ch2 with
            | true =>
              rw [show (((ch2 :: crest2).map compileChoiceItem).flatten : Str) ++
                ['\x7d'] = ' ' :: '\x22' :: ((ch2 ++ ['\x22']) ++
                  ((crest2.map compileChoiceItem).flatten ++ ['\x7d'])) from by
                rw [show ((ch2 :: crest2).map compileChoiceItem).flatten =
                  compileChoiceItem ch2 ++ (crest2.map compileChoiceItem).flatten
                  by simp, compileChoiceItem_quote hnq2]
                simp]
              rw [List.dropWhile_cons_of_pos (by decide),
                List.dropWhile_cons_of_neg (by decide)]
              intro ⟨h1, h2⟩
              rw [List.takeWhile_cons_of_neg (by decide)] at h1
              exact h1 rfl
            | false =>
              obtain ⟨e2, es2, rfl⟩ : ∃ e2 es2, ch2 = e2 :: es2 := by
                cases hc : ch2 with
                | nil => exact absurd hc (bare_ne_nil hnq2)
                | cons a b => exact ⟨a, b, rfl⟩
              have hch2ws : ∀ x ∈ e2 :: es2, isWs x = false :=
                hbareAll _ (List.mem_cons_of_mem _ (List.mem_cons_self _ _)) hnq2
              rw [show ((((e2 :: es2) :: crest2).map compileChoiceItem).flatten
                : Str) ++ ['\x7d'] = ' ' :: ((e2 :: es2) ++
                  ((crest2.map compileChoiceItem).flatten ++ ['\x7d'])) from by
                rw [show (((e2 :: es2) :: crest2).map compileChoiceItem).flatten =
                  compileChoiceItem (e2 :: es2) ++
                    (crest2.map compileChoiceItem).flatten by simp,
                  compileChoiceItem_bare hnq2]
                simp]
              rw [List.dropWhile_cons_of_pos (by decide), List.cons_append,
                List.dropWhile_cons_of_neg
                  (by simp [hch2ws e2 (List.mem_cons_self _ _)])]
              refine @wordCheck_fail (e2 :: es2) _ ?_
                (itemsFlat_head crest2) ?_
              · intro x hx
                exact (hchars (e2 :: es2)
                  (List.mem_cons_of_mem _ (List.mem_cons_self _ _)) x hx).2.1
              · intro ⟨hne2, hword2, hflat2⟩
                -- this is exactly the second `genderShadow` shape
                have hcrest2 : crest2 = [] := by
                  rcases itemsFlat_head crest2 with hcr2 | ⟨t2, hcr2⟩
                  · cases hc : crest2 with
                    | nil => rfl
                    | cons a b =>
                      rw [hc] at hcr2
                      obtain ⟨tt, htt⟩ := @itemsFlat_head_of_ne a b
                      rw [htt] at hcr2
                      cases hcr2
                  · rw [hflat2] at hcr2
                    cases hcr2
                subst hcrest2
                have hshadow : genderShadow [['='], e2 :: es2] = true := by
                  simp only [genderShadow, Bool.and_eq_true]
                  refine ⟨⟨by decide, by simp⟩, ?_⟩
                  rw [List.all_eq_true]
                  exact hword2
                rw [show decide ((['G'] : Str) = ['G']) = true from by decide,
                  show (none : Option Nat).isNone = true from rfl,
                  hshadow] at hgD
                cases hgD
        · -- `=` followed by more characters in the same bare choice
          obtain ⟨e1, es1, rfl⟩ : ∃ e1 es1, es = e1 :: es1 := by
            cases hc : es with
            | nil => exact absurd hc hesne
            | cons a b => exact ⟨a, b, rfl⟩
          rw [List.cons_append,
            List.dropWhile_cons_of_neg
              (by simp [hch1ws e1 (List.mem_cons_of_mem _ (List.mem_cons_self _ _))])]
          refine @wordCheck_fail (e1 :: es1) _ ?_ (itemsFlat_head crest) ?_
          · intro x hx
            exact (hchars ('=' :: e1 :: es1) (List.mem_cons_self _ _) x
              (List.mem_cons_of_mem _ hx)).2.1
          · intro ⟨hne1, hword1, hflat1⟩
            have hcrest : crest = [] := by
              cases hc : crest with
              | nil => rfl
              | cons a b =>
                obtain ⟨tt, htt⟩ := @itemsFlat_head_of_ne a b
                rw [hc, htt] at hflat1
                cases hflat1
            subst hcrest
            have hshadow : genderShadow [('=' :: e1 :: es1)] = true := by
              simp only [genderShadow, Bool.and_eq_true]
              refine ⟨by simp, ?_⟩
              rw [List.all_eq_true]
              exact hword1
            rw [show decide ((['G'] : Str) = ['G']) = true from by decide,
              show (none : Option Nat).isNone = true from rfl,
              hshadow] at hgD
            cases hgD
      · -- first bare choice does not start with `=`: gender fails at once
        refine @gender_parse_no_eq _ e
          (es ++ ((crest.map compileChoiceItem).flatten ++ ['\x7d'])) ?_ heq
        rw [hdropFlat, List.dropWhile_cons_of_pos (by decide),
          List.dropWhile_cons_of_neg (by simp [hch1ws e (List.mem_cons_self _ _)])]

/-- Dispatch-level round trip: with the invariants of parse results and
the `goodChoice` side condition, every non-text fragment content
re-parses from its compiled form, through the command/gender/choice
priority order of `FragmentContent.parse`. -/
theorem content_roundtrip {c : FragmentContent} (hinv : ContInv c)
    (hgood : GoodCont c) (hnt : notText c) :
    FragmentContent.parse c.compile = .ok c := by
  cases c with
  | Text t => cases hnt
  | Command cmd =>
    rw [FragmentContent.parse.eq_def, show FragmentContent.compile
      (.Command cmd) = cmd.compile from rfl, command_roundtrip hinv]
  | Gender g =>
    rw [FragmentContent.parse.eq_def, show FragmentContent.compile
      (.Gender g) = g.compile from rfl, gender_compile_not_command hinv,
      gender_roundtrip hinv]
  | Choice cl =>
    rw [FragmentContent.parse.eq_def, show FragmentContent.compile
      (.Choice cl) = cl.compile from rfl, choice_compile_not_command hinv,
      choice_compile_not_gender hinv hgood, choice_roundtrip hinv hgood]

theorem itemsFlat_chars {chs : List Str} :
    ∀ x ∈ (chs.map compileChoiceItem).flatten,
      x = ' ' ∨ x = '\x22' ∨ ∃ ch ∈ chs, x ∈ ch := by
  induction chs with
  | nil => intro x hx; cases hx
  | cons ch rest ih =>
    intro x hx
    rw [show ((ch :: rest).map compileChoiceItem).flatten =
      compileChoiceItem ch ++ (rest.map compileChoiceItem).flatten by simp] at hx
    rcases List.mem_append.mp hx with hx | hx
    · cases hnq : needsQuote ch with
      | true =>
        rw [compileChoiceItem_quote hnq] at hx
        rcases List.mem_cons.mp hx with rfl | hx
        · exact Or.inl rfl
        rcases List.mem_cons.mp hx with rfl | hx
        · exact Or.inr (Or.inl rfl)
        rcases List.mem_append.mp hx with hx | hx
        · exact Or.inr (Or.inr ⟨ch, List.mem_cons_self _ _, hx⟩)
        · rw [List.mem_singleton] at hx
          exact Or.inr (Or.inl hx)
      | false =>
        rw [compileChoiceItem_bare hnq] at hx
        rcases List.mem_cons.mp hx with rfl | hx
        · exact Or.inl rfl
        · exact Or.inr (Or.inr ⟨ch, List.mem_cons_self _ _, hx⟩)
    · rcases ih x hx with h | h | ⟨ch2, hch2, hx2⟩
      · exact Or.inl h
      · exact Or.inr (Or.inl h)
      · exact Or.inr (Or.inr ⟨ch2, List.mem_cons_of_mem _ hch2, hx2⟩)

/-- Every compiled non-text fragment is a single brace-delimited span whose
closing brace occurs only at the very end. -/
theorem compile_span_shape {c : FragmentContent} (hinv : ContInv c)
    (hnt : notText c) :
    ∃ body : Str, c.compile = '\x7b' :: (body ++ ['\x7d']) ∧
      ∀ x ∈ body, x ≠ '\x7d' := by
  cases c with
  | Text t => cases hnt
  | Command cmd =>
    obtain ⟨idx0, nm0, cm0⟩ := cmd
    obtain ⟨hname, hcase, hidx⟩ := hinv
    simp only at hname hcase hidx
    refine ⟨idxPart idx0 ++ nm0 ++ casePart cm0, by
      rw [show FragmentContent.compile (.Command ⟨idx0, nm0, cm0⟩) =
        StringCommand.compile ⟨idx0, nm0, cm0⟩ from rfl, StringCommand.compile],
      ?_⟩
    intro x hx
    rcases List.mem_append.mp hx with hx | hx
    · rcases List.mem_append.mp hx with hx | hx
      · cases idx0 with
        | none => cases hx
        | some i =>
          rw [show idxPart (some i) = toDec i ++ [':'] from rfl] at hx
          rcases List.mem_append.mp hx with hx | hx
          · exact ne_of_class (toDec_digits x hx) (by decide)
          · rw [List.mem_singleton] at hx
            subst hx
            decide
      · rcases hname with rfl | rfl | ⟨d, ds, rfl, hd, hds⟩
        · cases hx
        · rw [List.mem_singleton] at hx
          subst hx
          decide
        · rcases List.mem_cons.mp hx with rfl | hx
          · exact ne_of_class hd (by decide)
          · exact ne_of_class (isNameCh_word (hds x hx)) (by decide)
    · cases cm0 with
      | none => cases hx
      | some cs =>
        rw [show casePart (some cs) = '.' :: cs from rfl] at hx
        rcases List.mem_cons.mp hx with rfl | hx
        · decide
        · exact ne_of_class ((hcase cs rfl).2 x hx) (by decide)
  | Gender g =>
    obtain ⟨tag⟩ := g
    obtain ⟨htne, htw⟩ := hinv
    simp only at htne htw
    refine ⟨'G' :: '=' :: tag, by
      rw [show FragmentContent.compile (.Gender ⟨tag⟩) =
        GenderDefinition.compile ⟨tag⟩ from rfl, GenderDefinition.compile]
      simp, ?_⟩
    intro x hx
    rcases List.mem_cons.mp hx with rfl | hx
    · decide
    rcases List.mem_cons.mp hx with rfl | hx
    · decide
    · exact ne_of_class (htw x hx) (by decide)
  | Choice cl =>
    obtain ⟨nm, ir, isr, chs⟩ := cl
    obtain ⟨hname, hchne, -, -, hchars⟩ := hinv
    simp only at hname hchne hchars
    refine ⟨nm ++ refPart ir isr ++ (chs.map compileChoiceItem).flatten, by
      rw [show FragmentContent.compile (.Choice ⟨nm, ir, isr, chs⟩) =
        ChoiceList.compile ⟨nm, ir, isr, chs⟩ from rfl, ChoiceList.compile],
      ?_⟩
    intro x hx
    rcases List.mem_append.mp hx with hx | hx
    · rcases List.mem_append.mp hx with hx | hx
      · rcases hname with rfl | rfl <;>
          rw [List.mem_singleton] at hx <;> subst hx <;> decide
      · cases ir with
        | none => cases hx
        | some i =>
          rw [show refPart (some i) isr = ' ' :: (toDec i ++ subPart isr)
            from rfl] at hx
          rcases List.mem_cons.mp hx with rfl | hx
          · decide
          rcases List.mem_append.mp hx with hx | hx
          · exact ne_of_class (toDec_digits x hx) (by decide)
          · cases isr with
            | none => cases hx
            | some j =>
              rw [show subPart (some j) = ':' :: toDec j from rfl] at hx
              rcases List.mem_cons.mp hx with rfl | hx
              · decide
              · exact ne_of_class (toDec_digits x hx) (by decide)
    · rcases itemsFlat_chars x hx with rfl | rfl | ⟨ch, hch, hxch⟩
      · decide
      · decide
      · exact (hchars ch hch x hxch).2.1

/-!
## Scanner layer
-/

theorem parseLoop_nil (fuel pos : Nat) : parseLoop fuel [] pos = .ok [] := by
  cases fuel <;> rfl

theorem parseLoop_step {fuel pos : Nat} {rest : Str} (hne : rest ≠ []) :
    parseLoop (fuel + 1) rest pos =
      (match rest.findIdx? (· == '\x7b') with
        | some start =>
          match (rest.drop start).findIdx? (· == '\x7d') with
          | some e =>
            match FragmentContent.parse ((rest.drop start).take (e + 1)) with
            | .ok content =>
              match parseLoop fuel ((rest.drop start).drop (e + 1))
                  (pos + start + (e + 1)) with
              | .ok frags =>
                .ok ((if 0 < start then
                    [⟨pos, pos + start, .Text (rest.take start)⟩] else []) ++
                  ⟨pos + start, pos + start + (e + 1), content⟩ :: frags)
              | .error err => .error err
            | .error msg =>
              .error ⟨pos + start, some (pos + start + (e + 1)), msg⟩
          | none => .error ⟨pos + start, none, untermMsg⟩
        | none => .ok [⟨pos, pos + rest.length, .Text rest⟩]) := by
  cases rest with
  | nil => exact absurd rfl hne
  | cons a l => rfl

theorem findIdx_none {l : Str} {c : Char} (h : ∀ x ∈ l, x ≠ c) :
    l.findIdx? (· == c) = none := by
  rw [List.findIdx?_eq_none_iff]
  intro x hx
  simpa using h x hx

theorem findIdx_first {pre post : Str} {c : Char} (h : ∀ x ∈ pre, x ≠ c) :
    (pre ++ c :: post).findIdx? (· == c) = some pre.length := by
  induction pre with
  | nil => simp
  | cons a l ih =>
    rw [List.cons_append, List.findIdx?_cons,
      if_neg (by simpa using h a (List.mem_cons_self a l)),
      List.findIdx?_succ, ih (fun x hx => h x (List.mem_cons_of_mem a hx))]
    rfl

theorem findIdx_split {l : Str} {c : Char} {i : Nat}
    (h : l.findIdx? (· == c) = some i) :
    ∃ pre post, l = pre ++ c :: post ∧ pre.length = i ∧ ∀ x ∈ pre, x ≠ c := by
  induction l generalizing i with
  | nil => cases h
  | cons a l ih =>
    rw [List.findIdx?_cons] at h
    by_cases hac : a = c
    · subst hac
      rw [if_pos (by simp)] at h
      cases h
      exact ⟨[], l, rfl, rfl, by simp⟩
    · rw [if_neg (by simpa using hac), List.findIdx?_succ] at h
      cases hl : l.findIdx? (· == c) with
      | none => rw [hl] at h; cases h
      | some j =>
        rw [hl] at h
        obtain ⟨pre, post, rfl, hlen, hpre⟩ := ih hl
        injection h with h
        exact ⟨a :: pre, post, rfl, by simp [hlen, ← h], by
          intro x hx
          rcases List.mem_cons.mp hx with rfl | hx
          · exact hac
          · exact hpre x hx⟩

/-- One full scanner step over an explicit text/span/tail decomposition. -/
theorem parseLoop_span {text mid tail : Str} {fuel pos : Nat}
    (htext : ∀ x ∈ text, x ≠ '\x7b') (hmid : ∀ x ∈ '\x7b' :: mid, x ≠ '\x7d') :
    parseLoop (fuel + 1) (text ++ '\x7b' :: (mid ++ '\x7d' :: tail)) pos =
      (match FragmentContent.parse ('\x7b' :: (mid ++ ['\x7d'])) with
        | .ok content =>
          match parseLoop fuel tail (pos + text.length + (mid.length + 2)) with
          | .ok frags =>
            .ok ((if 0 < text.length then
                [⟨pos, pos + text.length, .Text text⟩] else []) ++
              ⟨pos + text.length, pos + text.length + (mid.length + 2),
                content⟩ :: frags)
          | .error err => .error err
        | .error msg =>
          .error ⟨pos + text.length,
            some (pos + text.length + (mid.length + 2)), msg⟩) := by
  rw [parseLoop_step (by simp)]
  rw [findIdx_first htext]
  dsimp only
  rw [List.drop_left, List.take_left]
  rw [show ('\x7b' :: (mid ++ '\x7d' :: tail) : Str) =
    ('\x7b' :: mid) ++ '\x7d' :: tail from by simp]
  rw [findIdx_first hmid]
  dsimp only
  rw [List.take_append, List.drop_append]
  simp only [List.take_succ_cons, List.take_zero, List.drop_succ_cons,
    List.drop_zero, List.length_cons, List.cons_append]

/-- The scanner's unterminated-bracket error. -/
theorem parseLoop_unterm {text mid : Str} {fuel pos : Nat}
    (htext : ∀ x ∈ text, x ≠ '\x7b') (hmid : ∀ x ∈ '\x7b' :: mid, x ≠ '\x7d') :
    parseLoop (fuel + 1) (text ++ '\x7b' :: mid) pos =
      .error ⟨pos + text.length, none, untermMsg⟩ := by
  rw [parseLoop_step (by simp), findIdx_first htext]
  dsimp only
  rw [List.drop_left, findIdx_none hmid]

/-- Text-only tail. -/
theorem parseLoop_text {rest : Str} {fuel pos : Nat} (hne : rest ≠ [])
    (hnb : ∀ x ∈ rest, x ≠ '\x7b') :
    parseLoop (fuel + 1) rest pos =
      .ok [⟨pos, pos + rest.length, .Text rest⟩] := by
  rw [parseLoop_step hne, findIdx_none hnb]

theorem AltOk_nil : AltOk [] := trivial

theorem AltOk_single (c : FragmentContent) : AltOk [c] := by
  cases c <;> exact trivial

theorem AltOk_cons_notText {c : FragmentContent} {cs : List FragmentContent}
    (hnt : notText c) (h : AltOk cs) : AltOk (c :: cs) := by
  cases c with
  | Text t => cases hnt
  | Command x => cases cs <;> exact h
  | Gender x => cases cs <;> exact h
  | Choice x => cases cs <;> exact h

theorem AltOk_cons_text {t : Str} {c : FragmentContent}
    {cs : List FragmentContent} (hnt : notText c) (h : AltOk (c :: cs)) :
    AltOk (.Text t :: c :: cs) := ⟨hnt, h⟩

/-- Dispatch-level soundness: a span that any of the three grammars accepts
yields a content satisfying its grammar's invariant, and is never literal
text. -/
theorem contentParse_sound {s : Str} {c : FragmentContent}
    (h : FragmentContent.parse s = .ok c)
    (hspan : ∀ x ∈ s.dropLast, x ≠ '\x7d') : ContInv c ∧ notText c := by
  rw [FragmentContent.parse.eq_def] at h
  split at h
  · injection h with h; subst h
    exact ⟨commandParse_sound (by assumption), trivial⟩
  · split at h
    · injection h with h; subst h
      exact ⟨genderParse_sound (by assumption), trivial⟩
    · split at h
      · injection h with h; subst h
        exact ⟨choiceParse_sound (by assumption) hspan, trivial⟩
      · cases h

theorem invalidMsg_ne_untermMsg (s : Str) : invalidMsg s ≠ untermMsg := by
  intro h
  have := congrArg (List.head?) h
  simp [invalidMsg, untermMsg] at this

/-- Every fragment list the scanner returns satisfies the per-fragment
content invariant and has no two adjacent text fragments. -/
theorem parseLoop_inv : ∀ (fuel : Nat) (rest : Str) (pos : Nat)
    (frags : List StringFragment),
    parseLoop fuel rest pos = .ok frags →
    (∀ f ∈ frags, ContInv f.content) ∧ AltOk (frags.map (·.content)) := by
  intro fuel
  induction fuel with
  | zero =>
    intro rest pos frags h
    cases rest with
    | nil =>
      rw [parseLoop_nil] at h
      injection h with h
      subst h
      exact ⟨by simp, AltOk_nil⟩
    | cons a l => cases h
  | succ fuel ih =>
    intro rest pos frags h
    cases rest with
    | nil =>
      rw [parseLoop_nil] at h
      injection h with h
      subst h
      exact ⟨by simp, AltOk_nil⟩
    | cons a l =>
      rw [parseLoop_step (by simp)] at h
      split at h
      case h_2 heq =>
        injection h with h
        subst h
        refine ⟨?_, by exact AltOk_single _⟩
        intro f hf
        rcases List.mem_singleton.mp hf with rfl
        refine ⟨by simp, ?_⟩
        intro x hx
        have := List.findIdx?_eq_none_iff.mp heq x hx
        simpa using this
      case h_1 start heq =>
        split at h
        case h_2 => cases h
        case h_1 e heq2 =>
          split at h
          case h_2 => cases h
          case h_1 content hparse =>
            split at h
            case h_2 => cases h
            case h_1 frags2 hrec =>
              injection h with h
              subst h
              obtain ⟨hinv2, halt2⟩ := ih _ _ _ hrec
              obtain ⟨pre2, post2, hr1, hlen2, hpre2⟩ := findIdx_split heq2
              have hspanEq : ((a :: l : Str).drop start).take (e + 1) =
                  pre2 ++ ['\x7d'] := by
                rw [hr1, ← hlen2, show pre2.length + 1 = pre2.length + 1 from rfl,
                  List.take_append]
                rfl
              have hspan : ∀ x ∈ (((a :: l : Str).drop start).take (e + 1)).dropLast,
                  x ≠ '\x7d' := by
                rw [hspanEq, List.dropLast_concat]
                exact hpre2
              obtain ⟨hcinv, hcnt⟩ := contentParse_sound hparse hspan
              obtain ⟨pre, post, hr, hlen, hpre⟩ := findIdx_split heq
              have htake : (a :: l : Str).take start = pre := by
                rw [hr, ← hlen, List.take_left]
              constructor
              · intro f hf
                rcases List.mem_append.mp hf with hf | hf
                · split at hf
                  case isTrue hstart =>
                    rcases List.mem_singleton.mp hf with rfl
                    refine ⟨?_, ?_⟩
                    · rw [htake]
                      intro hnil
                      rw [hnil] at hlen
                      simp at hlen
                      omega
                    · intro x hx
                      rw [htake] at hx
                      exact hpre x hx
                  case isFalse => cases hf
                · rcases List.mem_cons.mp hf with rfl | hf
                  · exact hcinv
                  · exact hinv2 f hf
              · rw [List.map_append, List.map_cons]
                by_cases hstart : 0 < start
                · rw [if_pos hstart]
                  exact AltOk_cons_text hcnt (AltOk_cons_notText hcnt halt2)
                · rw [if_neg hstart]
                  exact AltOk_cons_notText hcnt halt2

/-- Scanner fragment positions chain contiguously from the start position
to the start position plus the codepoint length of the scanned text. -/
theorem parseLoop_chain : ∀ (fuel : Nat) (rest : Str) (pos : Nat)
    (frags : List StringFragment),
    parseLoop fuel rest pos = .ok frags →
    FragChain pos frags (pos + rest.length) := by
  intro fuel
  induction fuel with
  | zero =>
    intro rest pos frags h
    cases rest with
    | nil =>
      rw [parseLoop_nil] at h
      injection h with h
      subst h
      simp [FragChain]
    | cons a l => cases h
  | succ fuel ih =>
    intro rest pos frags h
    cases rest with
    | nil =>
      rw [parseLoop_nil] at h
      injection h with h
      subst h
      simp [FragChain]
    | cons a l =>
      rw [parseLoop_step (by simp)] at h
      split at h
      case h_2 heq =>
        injection h with h
        subst h
        exact ⟨rfl, Nat.le_add_right pos _, rfl⟩
      case h_1 start heq =>
        split at h
        case h_2 => cases h
        case h_1 e heq2 =>
          split at h
          case h_2 => cases h
          case h_1 content hparse =>
            split at h
            case h_2 => cases h
            case h_1 frags2 hrec =>
              injection h with h
              subst h
              have hchain2 := ih _ _ _ hrec
              obtain ⟨pre, post, hr, hlen, _⟩ := findIdx_split heq
              obtain ⟨pre2, post2, hr1, hlen2, _⟩ := findIdx_split heq2
              have hstartle : start ≤ (a :: l : Str).length := by
                rw [hr, ← hlen]
                simp
              have hr1len : ((a :: l : Str).drop start).length =
                  (a :: l : Str).length - start := List.length_drop ..
              have her1 : e + 1 ≤ ((a :: l : Str).drop start).length := by
                rw [hr1, ← hlen2]
                simp
              have hr2len : (((a :: l : Str).drop start).drop (e + 1)).length =
                  ((a :: l : Str).drop start).length - (e + 1) :=
                List.length_drop ..
              have hend : pos + start + (e + 1) +
                  (((a :: l : Str).drop start).drop (e + 1)).length =
                  pos + (a :: l : Str).length := by
                omega
              rw [hend] at hchain2
              by_cases hstart : 0 < start
              · rw [if_pos hstart]
                exact ⟨rfl, Nat.le_add_right pos start, rfl,
                  Nat.le_add_right (pos + start) (e + 1), hchain2⟩
              · rw [if_neg hstart]
                have hstart0 : start = 0 := by omega
                subst hstart0
                exact ⟨rfl, Nat.le_add_right (pos + 0) (e + 1), hchain2⟩

/-- A dispatch failure means all three grammars rejected the span, and the
message quotes the span verbatim. -/
theorem FragmentContent.parse_err {s m : Str}
    (h : FragmentContent.parse s = .error m) :
    m = invalidMsg s ∧ StringCommand.parse s = none ∧
      GenderDefinition.parse s = none ∧ ChoiceList.parse s = none := by
  rw [FragmentContent.parse.eq_def] at h
  split at h
  · cases h
  · split at h
    · cases h
    · split at h
      · cases h
      · injection h with h
        exact ⟨h.symm, by assumption, by assumption, by assumption⟩

/-- Scanner error characterization: an error with no end offset is the
unterminated-bracket error, pointing at an opening brace with no closing
brace after it; an error with an end offset is the invalid-span error, its
span delimited by that opening brace and the first closing brace, quoted
verbatim in the message after all three grammars rejected it. -/
theorem parseLoop_err : ∀ (fuel : Nat) (rest : Str) (pos : Nat)
    (err : ParserError), rest.length ≤ fuel →
    parseLoop fuel rest pos = .error err →
    pos ≤ err.pos_begin ∧ err.pos_begin - pos ≤ rest.length ∧
    ((err.pos_end = none ∧ err.message = untermMsg ∧
       ∃ mid, rest.drop (err.pos_begin - pos) = '\x7b' :: mid ∧
         ∀ x ∈ '\x7b' :: mid, x ≠ '\x7d') ∨
     (∃ body : Str,
       err.pos_end = some (err.pos_begin + (body.length + 2)) ∧
       rest.drop (err.pos_begin - pos) =
         '\x7b' :: (body ++ '\x7d' ::
           rest.drop (err.pos_begin - pos + (body.length + 2))) ∧
       (∀ x ∈ '\x7b' :: body, x ≠ '\x7d') ∧
       err.message = invalidMsg ('\x7b' :: (body ++ ['\x7d'])) ∧
       StringCommand.parse ('\x7b' :: (body ++ ['\x7d'])) = none ∧
       GenderDefinition.parse ('\x7b' :: (body ++ ['\x7d'])) = none ∧
       ChoiceList.parse ('\x7b' :: (body ++ ['\x7d'])) = none)) := by
  intro fuel
  induction fuel with
  | zero =>
    intro rest pos err hfuel h
    cases rest with
    | nil => rw [parseLoop_nil] at h; cases h
    | cons a l => simp at hfuel
  | succ fuel ih =>
    intro rest pos err hfuel h
    cases rest with
    | nil => rw [parseLoop_nil] at h; cases h
    | cons a l =>
      rw [parseLoop_step (by simp)] at h
      split at h
      case h_2 => cases h
      case h_1 start heq =>
        obtain ⟨pre, post, hr, hlen, hpre⟩ := findIdx_split heq
        have hstartle : start ≤ (a :: l : Str).length := by
          rw [hr, ← hlen]; simp
        have hdropstart : (a :: l : Str).drop start = '\x7b' :: post := by
          rw [hr, ← hlen, List.drop_left]
        split at h
        case h_2 heq2 =>
          injection h with h
          subst h
          refine ⟨Nat.le_add_right pos start, by simpa using hstartle, .inl ?_⟩
          refine ⟨rfl, rfl, post, ?_, ?_⟩
          · show (a :: l : Str).drop (pos + start - pos) = _
            rw [Nat.add_sub_cancel_left, hdropstart]
          · intro x hx
            have := List.findIdx?_eq_none_iff.mp heq2 x (by rwa [hdropstart])
            simpa using this
        case h_1 e heq2 =>
          obtain ⟨pre2, post2, hr1, hlen2, hpre2⟩ := findIdx_split heq2
          have her1 : e + 1 ≤ ((a :: l : Str).drop start).length := by
            rw [hr1, ← hlen2]; simp
          have hr1len : ((a :: l : Str).drop start).length =
              (a :: l : Str).length - start := List.length_drop ..
          have hpre2shape : ∃ body, pre2 = '\x7b' :: body := by
            cases hp2 : pre2 with
            | nil =>
              rw [hp2] at hr1
              rw [hdropstart] at hr1
              injection hr1 with h1 h2
              cases h1
            | cons b bs =>
              rw [hp2] at hr1
              rw [hdropstart] at hr1
              injection hr1 with h1 h2
              exact ⟨bs, by rw [h1]⟩
          obtain ⟨body, hbody⟩ := hpre2shape
          have hspanEq : ((a :: l : Str).drop start).take (e + 1) =
              '\x7b' :: (body ++ ['\x7d']) := by
            rw [hr1, ← hlen2, show pre2.length + 1 = pre2.length + 1 from rfl,
              List.take_append, hbody]
            rfl
          have hebody : e = body.length + 1 := by
            rw [← hlen2, hbody]; simp
          split at h
          case h_2 msg hparse =>
            injection h with h
            subst h
            obtain ⟨hmsg, hc1, hc2, hc3⟩ := FragmentContent.parse_err hparse
            rw [hspanEq] at hmsg hc1 hc2 hc3
            refine ⟨Nat.le_add_right pos start, by simpa using hstartle,
              .inr ⟨body, ?_, ?_, ?_, hmsg, hc1, hc2, hc3⟩⟩
            · show some (pos + start + (e + 1)) = some (pos + start + (body.length + 2))
              rw [hebody]
            · show (a :: l : Str).drop (pos + start - pos) = _
              rw [Nat.add_sub_cancel_left, hdropstart]
              have hpost : post = body ++ '\x7d' :: post2 := by
                have h12 := hdropstart.symm.trans hr1
                rw [hbody] at h12
                simpa using h12
              rw [hpost]
              have hdrop2 : (a :: l : Str).drop (start + (body.length + 2)) =
                  post2 := by
                have h1 : (a :: l : Str).drop (start + (body.length + 2)) =
                    ((a :: l : Str).drop start).drop (body.length + 2) := by
                  rw [List.drop_drop]
                  try congr 1
                  try omega
                rw [h1, hdropstart, hpost]
                rw [show body.length + 2 = body.length + 1 + 1 from rfl,
                  List.drop_succ_cons]
                rw [show ((body ++ '\x7d' :: post2 : Str)) =
                  (body ++ ['\x7d']) ++ post2 from by simp]
                rw [show body.length + 1 = (body ++ ['\x7d'] : Str).length from by simp]
                rw [List.drop_left]
              rw [hdrop2]
            · intro x hx
              rw [← hbody] at hx
              exact hpre2 x hx
          case h_1 content hparse =>
            split at h
            case h_1 => cases h
            case h_2 err2 hrec =>
              injection h with h
              subst h
              have hr2len : (((a :: l : Str).drop start).drop (e + 1)).length =
                  ((a :: l : Str).drop start).length - (e + 1) :=
                List.length_drop ..
              have hcl : (a :: l : Str).length = l.length + 1 := by simp
              have hfuel2 : (((a :: l : Str).drop start).drop (e + 1)).length ≤ fuel := by
                omega
              obtain ⟨h1, h2, h3⟩ := ih _ _ _ hfuel2 hrec
              have hposle : pos ≤ err2.pos_begin := by omega
              have hboundtop : err2.pos_begin - pos ≤ (a :: l : Str).length := by
                omega
              have hdropk : ∀ k, (((a :: l : Str).drop start).drop (e + 1)).drop k =
                  (a :: l : Str).drop (start + (e + 1) + k) := by
                intro k
                rw [List.drop_drop, List.drop_drop]
                congr 1
                omega
              have hpbshift : err2.pos_begin - pos =
                  start + (e + 1) + (err2.pos_begin - (pos + start + (e + 1))) := by
                omega
              rcases h3 with ⟨hn, hm, mid, hmid, hnb⟩ | ⟨bd, hq, hsplit, hnb, hm, hg1, hg2, hg3⟩
              · refine ⟨hposle, hboundtop, .inl ⟨hn, hm, mid, ?_, hnb⟩⟩
                rw [hpbshift, ← hdropk]
                exact hmid
              · refine ⟨hposle, hboundtop, .inr ⟨bd, hq, ?_, hnb, hm, hg1, hg2, hg3⟩⟩
                rw [hpbshift, ← hdropk]
                rw [show start + (e + 1) + (err2.pos_begin - (pos + start + (e + 1))) +
                  (bd.length + 2) = start + (e + 1) +
                  (err2.pos_begin - (pos + start + (e + 1)) + (bd.length + 2)) from by omega]
                rw [← hdropk]
                exact hsplit

/-- Rendering of a content list, as `ParsedString.compile` does after
dropping positions. -/
def render (cs : List FragmentContent) : Str :=
  (cs.map FragmentContent.compile).flatten

/-- One scanner step over a text prefix followed by one compiled non-text
content: the step recovers the text fragment (when nonempty) and the
content itself. -/
theorem parseLoop_span_content {t rest2 : Str} {c : FragmentContent}
    {fuel pos : Nat} {frags2 : List StringFragment}
    (htext : ∀ x ∈ t, x ≠ '\x7b')
    (hinv : ContInv c) (hgood : GoodCont c) (hnt : notText c)
    (hrec : parseLoop fuel rest2 (pos + t.length + c.compile.length) =
      .ok frags2) :
    parseLoop (fuel + 1) (t ++ (c.compile ++ rest2)) pos =
      .ok ((if 0 < t.length then [⟨pos, pos + t.length, .Text t⟩] else []) ++
        ⟨pos + t.length, pos + t.length + c.compile.length, c⟩ :: frags2) := by
  obtain ⟨body, hcomp, hbody⟩ := compile_span_shape hinv hnt
  have hlen : c.compile.length = body.length + 2 := by
    rw [hcomp]
    simp
  have hshape : t ++ (c.compile ++ rest2) =
      t ++ '\x7b' :: (body ++ '\x7d' :: rest2) := by
    rw [hcomp]
    simp
  rw [hshape, parseLoop_span htext ?hmid]
  case hmid =>
    intro x hx
    rcases List.mem_cons.mp hx with rfl | hx
    · decide
    · exact hbody x hx
  rw [show ('\x7b' :: (body ++ ['\x7d']) : Str) = c.compile from hcomp.symm]
  rw [content_roundtrip hinv hgood hnt]
  rw [show body.length + 2 = c.compile.length from hlen.symm]
  rw [hrec]

theorem AltOk_tail {c : FragmentContent} {cs : List FragmentContent}
    (h : AltOk (c :: cs)) : AltOk cs := by
  cases c with
  | Text t =>
    cases cs with
    | nil => exact AltOk_nil
    | cons c2 cs2 => exact h.2
  | Command x => cases cs <;> exact h
  | Gender x => cases cs <;> exact h
  | Choice x => cases cs <;> exact h

theorem render_cons (c : FragmentContent) (cs : List FragmentContent) :
    render (c :: cs) = c.compile ++ render cs := by
  simp [render]

/-- Scanner reconstruction: re-scanning the rendering of an
invariant-satisfying, alternation-respecting content list recovers exactly
that content list. -/
theorem parseLoop_render : ∀ (n : Nat) (cs : List FragmentContent),
    cs.length ≤ n →
    (∀ c ∈ cs, ContInv c ∧ GoodCont c) → AltOk cs →
    ∀ (fuel pos : Nat), (render cs).length ≤ fuel →
    ∃ frags, parseLoop fuel (render cs) pos = .ok frags ∧
      frags.map (·.content) = cs := by
  intro n
  induction n with
  | zero =>
    intro cs hn _ _ fuel pos _
    rw [List.length_eq_zero.mp (Nat.le_zero.mp hn)]
    exact ⟨[], parseLoop_nil fuel pos, rfl⟩
  | succ n ih =>
    intro cs hn hcs halt fuel pos hfuel
    cases cs with
    | nil => exact ⟨[], parseLoop_nil fuel pos, rfl⟩
    | cons c cs2 =>
      by_cases hT : ∃ t, c = .Text t
      · obtain ⟨t, rfl⟩ := hT
        obtain ⟨⟨htne, htnb⟩, -⟩ := hcs _ (List.mem_cons_self _ _)
        have htlen : 1 ≤ t.length := by
          cases t with
          | nil => exact absurd rfl htne
          | cons x xs => simp
        cases cs2 with
        | nil =>
          have hrender : render [FragmentContent.Text t] = t := by
            simp [render, FragmentContent.compile]
          rw [hrender] at hfuel ⊢
          obtain ⟨fuel1, rfl⟩ : ∃ k, fuel = k + 1 := ⟨fuel - 1, by omega⟩
          exact ⟨[⟨pos, pos + t.length, .Text t⟩],
            parseLoop_text htne htnb, rfl⟩
        | cons c2 cs3 =>
          obtain ⟨hnt2, halt2⟩ : notText c2 ∧ AltOk (c2 :: cs3) := halt
          obtain ⟨hinv2, hgood2⟩ :=
            hcs _ (List.mem_cons_of_mem _ (List.mem_cons_self _ _))
          obtain ⟨body, hcomp, -⟩ := compile_span_shape hinv2 hnt2
          have hcl : 2 ≤ c2.compile.length := by
            rw [hcomp]
            simp
          have hrender : render (FragmentContent.Text t :: c2 :: cs3) =
              t ++ (c2.compile ++ render cs3) := by
            rw [render_cons, render_cons]
            rfl
          rw [hrender] at hfuel ⊢
          simp only [List.length_append] at hfuel
          obtain ⟨fuel1, rfl⟩ : ∃ k, fuel = k + 1 := ⟨fuel - 1, by omega⟩
          obtain ⟨frags2, hok2, hmap2⟩ := ih cs3
            (by simp at hn ⊢; omega)
            (fun x hx => hcs x (List.mem_cons_of_mem _ (List.mem_cons_of_mem _ hx)))
            (AltOk_tail halt2) fuel1 (pos + t.length + c2.compile.length)
            (by omega)
          refine ⟨_, parseLoop_span_content htnb hinv2 hgood2 hnt2 hok2, ?_⟩
          rw [if_pos (by omega)]
          simp [hmap2]
      · have hnt : notText c := by
          cases c with
          | Text t => exact absurd ⟨t, rfl⟩ hT
          | Command x => trivial
          | Gender x => trivial
          | Choice x => trivial
        obtain ⟨hinv, hgood⟩ := hcs _ (List.mem_cons_self _ _)
        obtain ⟨body, hcomp, -⟩ := compile_span_shape hinv hnt
        have hcl : 2 ≤ c.compile.length := by
          rw [hcomp]
          simp
        have hrender : render (c :: cs2) =
            ([] : Str) ++ (c.compile ++ render cs2) := by
          rw [render_cons]
          rfl
        rw [hrender] at hfuel ⊢
        simp only [List.length_append, List.length_nil] at hfuel
        obtain ⟨fuel1, rfl⟩ : ∃ k, fuel = k + 1 := ⟨fuel - 1, by omega⟩
        obtain ⟨frags2, hok2, hmap2⟩ := ih cs2
          (by simp at hn ⊢; omega)
          (fun x hx => hcs x (List.mem_cons_of_mem _ hx))
          (AltOk_tail halt) fuel1 (pos + ([] : Str).length + c.compile.length)
          (by omega)
        refine ⟨_, parseLoop_span_content (by simp) hinv hgood hnt hok2, ?_⟩
        rw [if_neg (by simp)]
        simp [hmap2]

/-!
## Parse-level wrappers
-/

theorem parse_ok_elim {s : Str} {p : ParsedString}
    (h : ParsedString.parse s = .ok p) :
    parseLoop s.length s 0 = .ok p.fragments := by
  unfold ParsedString.parse at h
  cases hl : parseLoop s.length s 0 with
  | error e =>
    rw [hl] at h
    cases h
  | ok l =>
    rw [hl] at h
    simp only [Except.map] at h
    injection h with h
    rw [← h]

theorem parse_err_elim {s : Str} {err : ParserError}
    (h : ParsedString.parse s = .error err) :
    parseLoop s.length s 0 = .error err := by
  unfold ParsedString.parse at h
  cases hl : parseLoop s.length s 0 with
  | error e =>
    rw [hl] at h
    simp only [Except.map] at h
    injection h with h
    rw [← h]
  | ok l =>
    rw [hl] at h
    cases h

theorem compile_eq_render (p : ParsedString) :
    p.compile = render (p.fragments.map (·.content)) := by
  unfold ParsedString.compile render
  rw [List.map_map]
  rfl

/-- The grammar invariants and text-alternation of every successful parse. -/
theorem parse_inv {s : Str} {p : ParsedString}
    (h : ParsedString.parse s = .ok p) :
    (∀ f ∈ p.fragments, ContInv f.content) ∧
      AltOk (p.fragments.map (·.content)) :=
  parseLoop_inv _ _ _ _ (parse_ok_elim h)

/-- Master reconstruction: re-parsing the compilation of a good parse
result succeeds with the same fragment contents. -/
theorem compile_reparse {s : Str} {p : ParsedString}
    (h : ParsedString.parse s = .ok p) (hg : GoodParsed p) :
    ∃ p', ParsedString.parse p.compile = .ok p' ∧
      p'.fragments.map (·.content) = p.fragments.map (·.content) := by
  obtain ⟨hinv, halt⟩ := parse_inv h
  have hcs : ∀ c ∈ p.fragments.map (·.content), ContInv c ∧ GoodCont c := by
    intro c hc
    obtain ⟨f, hf, rfl⟩ := List.mem_map.mp hc
    refine ⟨hinv f hf, ?_⟩
    cases hfc : f.content with
    | Text t => trivial
    | Command x => trivial
    | Gender x => trivial
    | Choice cl => exact hg f hf cl hfc
  obtain ⟨frags, hok, hmap⟩ := parseLoop_render
    (p.fragments.map (·.content)).length _ (Nat.le_refl _) hcs halt
    (render (p.fragments.map (·.content))).length 0 (Nat.le_refl _)
  refine ⟨⟨frags⟩, ?_, hmap⟩
  unfold ParsedString.parse
  rw [← compile_eq_render] at hok
  rw [hok]
  rfl

theorem normCont_compile (c : FragmentContent) :
    (normCont c).compile = c.compile := by
  cases c with
  | Choice cl =>
    obtain ⟨nm, ir, isr, chs⟩ := cl
    cases ir <;> rfl
  | Text t => rfl
  | Command x => rfl
  | Gender x => rfl

theorem normCont_ContInv {c : FragmentContent} (h : ContInv c) :
    ContInv (normCont c) := by
  cases c with
  | Choice cl =>
    obtain ⟨nm, ir, isr, chs⟩ := cl
    obtain ⟨h1, h2, h3, h4, h5⟩ := h
    cases ir with
    | some i => exact ⟨h1, h2, h3, h4, h5⟩
    | none =>
      refine ⟨h1, h2, h3, ?_, h5⟩
      intro j hj
      cases hj
  | Text t => exact h
  | Command x => exact h
  | Gender x => exact h

theorem normCont_GoodCont {c : FragmentContent}
    (h : ∀ cl, c = .Choice cl → goodChoiceC1 cl = true) :
    GoodCont (normCont c) := by
  cases c with
  | Choice cl =>
    obtain ⟨nm, ir, isr, chs⟩ := cl
    have hg := h _ rfl
    simp only [goodChoiceC1, Bool.and_eq_true] at hg
    obtain ⟨⟨hgA, hgB⟩, hgD⟩ := hg
    show goodChoice _ = true
    cases ir with
    | some i =>
      simp only [goodChoice, Bool.and_eq_true]
      exact ⟨⟨⟨hgA, hgB⟩, by simp⟩, hgD⟩
    | none =>
      simp only [goodChoice, Bool.and_eq_true]
      exact ⟨⟨⟨hgA, hgB⟩, by simp⟩, hgD⟩
  | Text t => trivial
  | Command x => trivial
  | Gender x => trivial

theorem normCont_notText {c : FragmentContent} (h : notText c) :
    notText (normCont c) := by
  cases c with
  | Text t => exact h
  | Command x => trivial
  | Gender x => trivial
  | Choice x => trivial

theorem AltOk_map_norm : ∀ cs : List FragmentContent, AltOk cs →
    AltOk (cs.map normCont) := by
  intro cs
  induction cs with
  | nil => intro h; exact AltOk_nil
  | cons c cs ih =>
    intro h
    rw [List.map_cons]
    cases c with
    | Text t =>
      cases cs with
      | nil => exact AltOk_single _
      | cons c2 cs2 =>
        obtain ⟨hnt, h2⟩ := h
        rw [List.map_cons]
        refine AltOk_cons_text (normCont_notText hnt) ?_
        have h3 := ih h2
        rwa [List.map_cons] at h3
    | Command x => exact AltOk_cons_notText trivial (ih (AltOk_tail h))
    | Gender x => exact AltOk_cons_notText trivial (ih (AltOk_tail h))
    | Choice x => exact AltOk_cons_notText trivial (ih (AltOk_tail h))

/-- Compile-level reconstruction: under the weaker `goodChoiceC1` side
condition, re-parsing the compilation of a parse result succeeds and
re-compiling yields the same string (an orphaned sub-index changes the
re-parsed content but not the rendering, so it is first normalized away
without touching the compiled string). -/
theorem compile_reparse_c1 {s : Str} {p : ParsedString}
    (h : ParsedString.parse s = .ok p) (hg : GoodParsedC1 p) :
    ∃ p', ParsedString.parse p.compile = .ok p' ∧ p'.compile = p.compile := by
  obtain ⟨hinv, halt⟩ := parse_inv h
  have hcs : ∀ c ∈ (p.fragments.map (·.content)).map normCont,
      ContInv c ∧ GoodCont c := by
    intro c hc
    obtain ⟨c0, hc0, rfl⟩ := List.mem_map.mp hc
    obtain ⟨f, hf, rfl⟩ := List.mem_map.mp hc0
    refine ⟨normCont_ContInv (hinv f hf), normCont_GoodCont ?_⟩
    intro cl hcl
    exact hg f hf cl hcl
  have halt2 : AltOk ((p.fragments.map (·.content)).map normCont) :=
    AltOk_map_norm _ halt
  have hrender : render ((p.fragments.map (·.content)).map normCont) =
      render (p.fragments.map (·.content)) := by
    unfold render
    rw [List.map_map]
    exact congrArg List.flatten
      (List.map_congr_left (fun c _ => normCont_compile c))
  obtain ⟨frags, hok, hmap⟩ := parseLoop_render
    ((p.fragments.map (·.content)).map normCont).length _ (Nat.le_refl _)
    hcs halt2
    (render ((p.fragments.map (·.content)).map normCont)).length 0
    (Nat.le_refl _)
  rw [hrender, ← compile_eq_render] at hok
  refine ⟨⟨frags⟩, ?_, ?_⟩
  · unfold ParsedString.parse
    rw [hok]
    rfl
  · show ParsedString.compile ⟨frags⟩ = _
    rw [compile_eq_render, compile_eq_render]
    show render (frags.map (·.content)) = _
    rw [hmap, hrender]

/-- Shape of every choice list the grammar accepts: kind `P` or `G`, and a
nonempty choice sequence. -/
theorem ChoiceList.parse_shape {s : Str} {cl : ChoiceList}
    (h : ChoiceList.parse s = some cl) :
    (cl.name = ['P'] ∨ cl.name = ['G']) ∧ cl.choices ≠ [] := by
  rw [ChoiceList.parse.eq_def] at h
  split at h
  case h_2 => cases h
  case h_1 k ds ds2 reg heq =>
    cases hit : itemLoop reg.length reg with
    | none =>
      rw [hit] at h
      cases h
    | some toks =>
      rw [hit] at h
      simp only [Option.map_some'] at h
      injection h with h
      subst h
      obtain ⟨hk, u, c0, a, wt, hs, hreg, hc0, hna⟩ := matchChoice_sound heq
      constructor
      · rcases hk with rfl | rfl
        · exact .inl rfl
        · exact .inr rfl
      · show toks ≠ []
        cases hregval : reg with
        | nil =>
          rw [hregval] at hreg
          simp at hreg
        | cons x l =>
          rw [hregval] at hit
          exact itemLoop_ne_nil hit

/-!
## Digit-run index parsing (for the overflow claim)
-/

theorem commandParse_digit_run {ds rest : Str} (hne : ds ≠ [])
    (hdig : ∀ x ∈ ds, isUniDigit x = true) :
    StringCommand.parse ('\x7b' :: (ds ++ ':' :: rest)) =
      cmdName (some ds) rest := by
  have hsplit := @takeWhile_split _ isUniDigit ds rest ':'
    hdig (by decide)
  simp only [StringCommand.parse]
  rw [hsplit.1, hsplit.2, if_neg hne]
  rfl

/-- A command span with any digit run as index parses, with the index
going through `parseUsize`. -/
theorem c8_command {ds : Str} (hne : ds ≠ [])
    (hdig : ∀ x ∈ ds, isUniDigit x = true) :
    StringCommand.parse
        ('\x7b' :: (ds ++ ':' :: ('N' :: 'U' :: 'M' :: ['\x7d']))) =
      some ⟨parseUsize ds, ['N', 'U', 'M'], none⟩ := by
  rw [commandParse_digit_run hne hdig]
  rfl

/-- A choice span with any digit run as index reference parses, with the
reference going through `parseUsize`. -/
theorem c8_choice {ds : Str} (hne : ds ≠ [])
    (hdig : ∀ x ∈ ds, isUniDigit x = true) :
    ChoiceList.parse ('\x7b' :: 'P' :: ' ' :: (ds ++ ' ' :: 'x' :: ['\x7d'])) =
      some ⟨['P'], parseUsize ds, none, [['x']]⟩ := by
  obtain ⟨d, ds1, rfl⟩ : ∃ d ds1, ds = d :: ds1 := by
    cases ds with
    | nil => exact absurd rfl hne
    | cons d ds1 => exact ⟨d, ds1, rfl⟩
  have hd : isUniDigit d = true := hdig d (List.mem_cons_self _ _)
  have hws := @takeWhile_split _ isWs [' ']
    (ds1 ++ ' ' :: 'x' :: ['\x7d']) d
    (by intro c hc; rcases List.mem_singleton.mp hc with rfl; decide)
    (isUniDigit_no_ws hd)
  have hds := @takeWhile_split _ isUniDigit (d :: ds1)
    ('x' :: ['\x7d']) ' ' hdig (by decide)
  have hmc : matchChoice ('\x7b' :: 'P' :: ' ' :: (d :: ds1 ++ ' ' :: 'x' :: ['\x7d'])) =
      some ('P', some (d :: ds1), none, [' ', 'x']) := by
    simp only [matchChoice]
    rw [if_pos (show True ∨ ('P' : Char) = 'G' from .inl trivial)]
    rw [show (' ' :: (d :: ds1 ++ ' ' :: 'x' :: ['\x7d']) : Str) =
      [' '] ++ d :: (ds1 ++ ' ' :: 'x' :: ['\x7d']) from by simp]
    rw [hws.1, hws.2]
    rw [show (d :: (ds1 ++ ' ' :: 'x' :: ['\x7d']) : Str) =
      (d :: ds1) ++ ' ' :: ('x' :: ['\x7d']) from by simp]
    rw [hds.1, hds.2]
    rw [if_neg (by simp), if_neg (by simp)]
    split
    case h_1 res hinner =>
      split at hinner
      · rename_i r3 heq
        injection heq with h1 _
        exact absurd h1 (by decide)
      · rw [show choiceRegion ([' ', 'x', '\x7d'] : Str) = some [' ', 'x']
          from by decide] at hinner
        simp only [Option.map_some'] at hinner
        exact hinner.symm
    case h_2 hinner =>
      exfalso
      split at hinner
      · rename_i r3 heq
        injection heq with h1 _
        exact absurd h1 (by decide)
      · rw [show choiceRegion ([' ', 'x', '\x7d'] : Str) = some [' ', 'x']
          from by decide] at hinner
        cases hinner
  rw [ChoiceList.parse.eq_def, hmc]
  dsimp only
  rw [show itemLoop ([' ', 'x'] : Str).length [' ', 'x'] = some [['x']] from by decide]
  rfl

theorem parseUsize_overflow {ds : Str} (h : usizeMax < natVal ds) :
    parseUsize ds = none := by
  unfold parseUsize
  rw [if_neg (by omega)]

theorem dispatch_err {s : Str} (h1 : StringCommand.parse s = none)
    (h2 : GenderDefinition.parse s = none) (h3 : ChoiceList.parse s = none) :
    FragmentContent.parse s = .error (invalidMsg s) := by
  unfold FragmentContent.parse
  rw [h1, h2, h3]

/-!
## Claim theorems
-/

/-- The Unicode-digit drift the round-trip side conditions guard against:
the quoted non-ASCII digit choice `٣` (U+0663, in `Nd`) parses and
compiles to a bare token, which the re-parse swallows into the index
capture (`\d` is `Nd`) whose `usize` parse fails — the choice is dropped.
`goodChoice` rejects exactly this shape. -/
theorem uniDigit_choice_drift :
    ParsedString.parse (sp "P \x22٣\x22 x") =
      .ok ⟨[⟨0, 9, .Choice ⟨['P'], none, none, [['٣'], ['x']]⟩⟩]⟩ ∧
    ParsedString.compile
        ⟨[⟨0, 9, .Choice ⟨['P'], none, none, [['٣'], ['x']]⟩⟩]⟩ =
      sp "P ٣ x" ∧
    ParsedString.parse (sp "P ٣ x") =
      .ok ⟨[⟨0, 7, .Choice ⟨['P'], none, none, [['x']]⟩⟩]⟩ ∧
    goodChoice ⟨['P'], none, none, [['٣'], ['x']]⟩ = false := by decide

/-- C1, counterexample: the all-digit index is re-rendered without its
leading zero, so a span satisfying all of the claimed canonical-form
conditions still fails `compile (parse s) = s`. -/
theorem c1_counterexample :
    ParsedString.parse (sp "07:NUM") =
      .ok ⟨[⟨0, 8, .Command ⟨some 7, ['N', 'U', 'M'], none⟩⟩]⟩ ∧
    ParsedString.compile ⟨[⟨0, 8, .Command ⟨some 7, ['N', 'U', 'M'], none⟩⟩]⟩ =
      sp "7:NUM" ∧
    sp "7:NUM" ≠ sp "07:NUM" := by decide

/-- C1, amended: on the compiler's own output the round trip is exact —
for every parse result good in the `goodChoiceC1` sense, the compiled
form re-parses and re-compiles to itself, so compiled strings are the
true canonical forms. -/
theorem c1_amended {s : Str} {p : ParsedString}
    (hp : ParsedString.parse s = .ok p) (hg : GoodParsedC1 p) :
    ∃ p', ParsedString.parse p.compile = .ok p' ∧ p'.compile = p.compile :=
  compile_reparse_c1 hp hg

theorem c1_amended_witness :
    ParsedString.parse (sp "P a b") =
      .ok ⟨[⟨0, 7, .Choice ⟨['P'], none, none, [['a'], ['b']]⟩⟩]⟩ ∧
    ∃ p', ParsedString.parse
        (ParsedString.compile ⟨[⟨0, 7, .Choice ⟨['P'], none, none, [['a'], ['b']]⟩⟩]⟩) =
        .ok p' ∧
      p'.compile =
        ParsedString.compile ⟨[⟨0, 7, .Choice ⟨['P'], none, none, [['a'], ['b']]⟩⟩]⟩ :=
  ⟨by decide, c1_amended (s := sp "P a b") (by decide) (by
    intro f hf cl hc
    rw [List.mem_singleton] at hf
    subst hf
    cases hc
    decide)⟩

/-- C2, counterexample: a quoted digit-leading choice compiles to a bare
token that re-parses as an index reference, so re-parsing the compiled
form changes the fragment contents. -/
theorem c2_counterexample :
    ParsedString.parse (sp "P \x223\x22 x") =
      .ok ⟨[⟨0, 9, .Choice ⟨['P'], none, none, [['3'], ['x']]⟩⟩]⟩ ∧
    ParsedString.compile ⟨[⟨0, 9, .Choice ⟨['P'], none, none, [['3'], ['x']]⟩⟩]⟩ =
      sp "P 3 x" ∧
    ParsedString.parse (sp "P 3 x") =
      .ok ⟨[⟨0, 7, .Choice ⟨['P'], some 3, none, [['x']]⟩⟩]⟩ ∧
    (⟨[⟨0, 9, .Choice ⟨['P'], none, none, [['3'], ['x']]⟩⟩]⟩ :
        ParsedString).fragments.map (·.content) ≠
      (⟨[⟨0, 7, .Choice ⟨['P'], some 3, none, [['x']]⟩⟩]⟩ :
        ParsedString).fragments.map (·.content) := by decide

/-- C2, amended: for every good parse result (no bare choice leading with
a Unicode `Nd` digit or bearing whitespace, no sub-index without index,
no rendered `G` list colliding with the gender grammar), re-parsing the
compiled form succeeds with the same fragment contents. -/
theorem c2_amended {s : Str} {p : ParsedString}
    (hp : ParsedString.parse s = .ok p) (hg : GoodParsed p) :
    ∃ p', ParsedString.parse p.compile = .ok p' ∧
      p'.fragments.map (·.content) = p.fragments.map (·.content) :=
  compile_reparse hp hg

theorem c2_amended_witness :
    ParsedString.parse (sp "G = n") = .ok ⟨[⟨0, 7, .Gender ⟨['n']⟩⟩]⟩ ∧
    ∃ p', ParsedString.parse
        (ParsedString.compile ⟨[⟨0, 7, .Gender ⟨['n']⟩⟩]⟩) = .ok p' ∧
      p'.fragments.map (·.content) =
        (⟨[⟨0, 7, .Gender ⟨['n']⟩⟩]⟩ : ParsedString).fragments.map (·.content) :=
  ⟨by decide, c2_amended (s := sp "G = n") (by decide) (by
    intro f hf cl hc
    rw [List.mem_singleton] at hf
    subst hf
    cases hc)⟩

/-- C3: fragment ranges chain contiguously from 0 to the codepoint length
of the input, with `pos_begin ≤ pos_end` on every fragment. -/
theorem c3 {s : Str} {p : ParsedString} (h : ParsedString.parse s = .ok p) :
    FragChain 0 p.fragments s.length := by
  have hc := parseLoop_chain _ _ _ _ (parse_ok_elim h)
  rwa [Nat.zero_add] at hc

theorem c3_witness :
    FragChain 0
      [⟨0, 5, .Gender ⟨['n']⟩⟩,
       ⟨5, 13, .Command ⟨none, "ORANGE".toList, none⟩⟩,
       ⟨13, 21, .Text "ΟπηνΤΤΔ ".toList⟩,
       ⟨21, 29, .Command ⟨none, "STRING".toList, none⟩⟩]
      (sp "G=n" ++ (sp "ORANGE" ++ ("ΟπηνΤΤΔ ".toList ++ sp "STRING"))).length ∧
    (sp "G=n" ++ (sp "ORANGE" ++ ("ΟπηνΤΤΔ ".toList ++ sp "STRING"))).length = 29 :=
  ⟨c3 (p := ⟨[⟨0, 5, .Gender ⟨['n']⟩⟩,
       ⟨5, 13, .Command ⟨none, "ORANGE".toList, none⟩⟩,
       ⟨13, 21, .Text "ΟπηνΤΤΔ ".toList⟩,
       ⟨21, 29, .Command ⟨none, "STRING".toList, none⟩⟩]⟩) (by decide), by decide⟩

/-- C4: a parse error has an absent end offset exactly when it is the
unterminated-bracket error, and in that case the reported begin offset
points at an opening brace with no closing brace anywhere after it. -/
theorem c4 {s : Str} {err : ParserError}
    (h : ParsedString.parse s = .error err) :
    (err.pos_end = none ↔ err.message = untermMsg) ∧
    (err.pos_end = none →
      ∃ mid, s.drop err.pos_begin = '\x7b' :: mid ∧
        ∀ x ∈ '\x7b' :: mid, x ≠ '\x7d') := by
  obtain ⟨hle, hbound, hcases⟩ :=
    parseLoop_err _ _ _ _ (Nat.le_refl _) (parse_err_elim h)
  rw [Nat.sub_zero] at hcases
  constructor
  · constructor
    · intro hn
      rcases hcases with ⟨-, hm, -⟩ | ⟨body, hq, -⟩
      · exact hm
      · rw [hn] at hq
        cases hq
    · intro hm
      rcases hcases with ⟨hn, -, -⟩ | ⟨body, hq, -, -, hmsg, -⟩
      · exact hn
      · rw [hm] at hmsg
        exact absurd hmsg.symm (invalidMsg_ne_untermMsg _)
  · intro hn
    rcases hcases with ⟨-, -, hmid⟩ | ⟨body, hq, -⟩
    · exact hmid
    · rw [hn] at hq
      cases hq

theorem c4_witness :
    ParsedString.parse (sp "G=n" ++ '\x7b' :: "ORANGE OpenTTD".toList) =
      .error ⟨5, none, untermMsg⟩ ∧
    ∃ mid, (sp "G=n" ++ '\x7b' :: "ORANGE OpenTTD".toList).drop 5 =
        '\x7b' :: mid ∧ ∀ x ∈ '\x7b' :: mid, x ≠ '\x7d' :=
  ⟨by decide, (c4 (show ParsedString.parse
      (sp "G=n" ++ '\x7b' :: "ORANGE OpenTTD".toList) =
      .error ⟨5, none, untermMsg⟩ from by decide)).2 rfl⟩

/-- C5: span recognition tries the command, gender, then choice grammar in
order, the first match deciding the content; when all three fail, parsing
fails with the invalid-span error whose end offset is the position just
after the closing brace and whose message quotes the span verbatim. -/
theorem c5 :
    (∀ (s : Str) (c : StringCommand), StringCommand.parse s = some c →
        FragmentContent.parse s = .ok (.Command c)) ∧
    (∀ (s : Str) (g : GenderDefinition), StringCommand.parse s = none →
        GenderDefinition.parse s = some g →
        FragmentContent.parse s = .ok (.Gender g)) ∧
    (∀ (s : Str) (cl : ChoiceList), StringCommand.parse s = none →
        GenderDefinition.parse s = none → ChoiceList.parse s = some cl →
        FragmentContent.parse s = .ok (.Choice cl)) ∧
    (∀ s : Str, StringCommand.parse s = none →
        GenderDefinition.parse s = none → ChoiceList.parse s = none →
        FragmentContent.parse s = .error (invalidMsg s)) ∧
    (∀ (s : Str) (err : ParserError) (q : Nat),
        ParsedString.parse s = .error err → err.pos_end = some q →
        ∃ body : Str, q = err.pos_begin + (body.length + 2) ∧
          s.drop err.pos_begin = '\x7b' :: (body ++ '\x7d' :: s.drop q) ∧
          err.message = invalidMsg ('\x7b' :: (body ++ ['\x7d'])) ∧
          FragmentContent.parse ('\x7b' :: (body ++ ['\x7d'])) =
            .error err.message) := by
  refine ⟨?_, ?_, ?_, fun s h1 h2 h3 => dispatch_err h1 h2 h3, ?_⟩
  · intro s c h
    unfold FragmentContent.parse
    rw [h]
  · intro s g h1 h2
    unfold FragmentContent.parse
    rw [h1, h2]
  · intro s cl h1 h2 h3
    unfold FragmentContent.parse
    rw [h1, h2, h3]
  · intro s err q h hq
    obtain ⟨hle, hbound, hcases⟩ :=
      parseLoop_err _ _ _ _ (Nat.le_refl _) (parse_err_elim h)
    rw [Nat.sub_zero] at hcases
    rcases hcases with ⟨hn, -, -⟩ | ⟨body, hq2, hsplit, hnb, hmsg, hg1, hg2, hg3⟩
    · rw [hn] at hq
      cases hq
    · rw [hq] at hq2
      injection hq2 with hq2
      refine ⟨body, hq2, ?_, hmsg, ?_⟩
      · rw [← hq2] at hsplit
        exact hsplit
      · rw [hmsg]
        exact dispatch_err hg1 hg2 hg3

theorem c5_witness :
    FragmentContent.parse (sp "1") = .error (invalidMsg (sp "1")) ∧
    ∃ body : Str, (4 : Nat) = 1 + (body.length + 2) ∧
      ('x' :: (sp "1" ++ ['y'])).drop 1 =
        '\x7b' :: (body ++ '\x7d' :: ('x' :: (sp "1" ++ ['y'])).drop 4) ∧
      invalidMsg (sp "1") = invalidMsg ('\x7b' :: (body ++ ['\x7d'])) ∧
      FragmentContent.parse ('\x7b' :: (body ++ ['\x7d'])) =
        .error (invalidMsg (sp "1")) :=
  ⟨c5.2.2.2.1 (sp "1") (by decide) (by decide) (by decide),
   c5.2.2.2.2 ('x' :: (sp "1" ++ ['y'])) ⟨1, some 4, invalidMsg (sp "1")⟩ 4
     (by decide) rfl⟩

/-- C6, counterexample: the choice-list kind is not an arbitrary uppercase
letter — `A` is rejected by all three grammars. -/
theorem c6_counterexample :
    ChoiceList.parse (sp "A x") = none ∧
    FragmentContent.parse (sp "A x") = .error (invalidMsg (sp "A x")) ∧
    ParsedString.parse (sp "A x") =
      .error ⟨0, some 5, invalidMsg (sp "A x")⟩ := by decide

/-- C6, amended: the kind tag of every accepted choice list is exactly `P`
or `G`, and both are accepted with the claimed index forms. -/
theorem c6_amended :
    (∀ (s : Str) (cl : ChoiceList), ChoiceList.parse s = some cl →
        cl.name = ['P'] ∨ cl.name = ['G']) ∧
    ChoiceList.parse (sp "P x") = some ⟨['P'], none, none, [['x']]⟩ ∧
    ChoiceList.parse (sp "G 1:2 a b") =
      some ⟨['G'], some 1, some 2, [['a'], ['b']]⟩ :=
  ⟨fun s cl h => (ChoiceList.parse_shape h).1, by decide, by decide⟩

theorem c6_amended_witness :
    ChoiceList.parse (sp "G x") = some ⟨['G'], none, none, [['x']]⟩ ∧
    ((⟨['G'], none, none, [['x']]⟩ : ChoiceList).name = ['P'] ∨
      (⟨['G'], none, none, [['x']]⟩ : ChoiceList).name = ['G']) :=
  ⟨by decide, c6_amended.1 (sp "G x") ⟨['G'], none, none, [['x']]⟩ (by decide)⟩

/-- C7, counterexample: a bare token may not begin with a digit — the
region of `\x7bP 5 3 x\x7d` fails the choice grammar entirely instead of
yielding choices `3`, `x`. -/
theorem c7_counterexample :
    ChoiceList.parse (sp "P 5 3 x") = none ∧
    ParsedString.parse (sp "P 5 3 x") =
      .error ⟨0, some 9, invalidMsg (sp "P 5 3 x")⟩ := by decide

/-- C7, amended: token parsing behaves as claimed on quoted and
non-digit-leading bare tokens (digit-leading is fine after the first
token), and at least one token is always present. -/
theorem c7_amended :
    ChoiceList.parse (sp "P \x22\x22 b") =
      some ⟨['P'], none, none, [[], ['b']]⟩ ∧
    ChoiceList.parse (sp "P 1:2 \x22a b\x22 \x22c\x22") =
      some ⟨['P'], some 1, some 2, [['a', ' ', 'b'], ['c']]⟩ ∧
    ChoiceList.parse (sp "P 5 x 3") =
      some ⟨['P'], some 5, none, [['x'], ['3']]⟩ ∧
    (∀ (s : Str) (cl : ChoiceList), ChoiceList.parse s = some cl →
        cl.choices ≠ []) :=
  ⟨by decide, by decide, by decide,
   fun s cl h => (ChoiceList.parse_shape h).2⟩

theorem c7_amended_witness :
    ChoiceList.parse (sp "P a") = some ⟨['P'], none, none, [['a']]⟩ ∧
    (⟨['P'], none, none, [['a']]⟩ : ChoiceList).choices ≠ [] :=
  ⟨by decide, c7_amended.2.2.2 (sp "P a") ⟨['P'], none, none, [['a']]⟩
    (by decide)⟩

/-- C8: an overflowing ordinal-index digit run does not fail the parse —
the command span and the choice span both still parse, with the index
(resp. index reference) silently absent. -/
theorem c8 {ds : Str} (hne : ds ≠ []) (hdig : ∀ x ∈ ds, isDigitCh x = true)
    (hover : usizeMax < natVal ds) :
    StringCommand.parse
        ('\x7b' :: (ds ++ ':' :: ('N' :: 'U' :: 'M' :: ['\x7d']))) =
      some ⟨none, ['N', 'U', 'M'], none⟩ ∧
    ChoiceList.parse ('\x7b' :: 'P' :: ' ' :: (ds ++ ' ' :: 'x' :: ['\x7d'])) =
      some ⟨['P'], none, none, [['x']]⟩ := by
  have hov := parseUsize_overflow hover
  have hudig : ∀ x ∈ ds, isUniDigit x = true :=
    fun x hx => isUniDigit_of_digit (hdig x hx)
  constructor
  · rw [c8_command hne hudig, hov]
  · rw [c8_choice hne hudig, hov]

theorem c8_witness :
    usizeMax < natVal (List.replicate 20 '9') ∧
    StringCommand.parse
        ('\x7b' :: (List.replicate 20 '9' ++ ':' :: ('N' :: 'U' :: 'M' :: ['\x7d']))) =
      some ⟨none, ['N', 'U', 'M'], none⟩ ∧
    ChoiceList.parse
        ('\x7b' :: 'P' :: ' ' :: (List.replicate 20 '9' ++ ' ' :: 'x' :: ['\x7d'])) =
      some ⟨['P'], none, none, [['x']]⟩ := by
  have h := c8 (show (List.replicate 20 '9' : Str) ≠ [] from by decide)
    (by decide) (by decide)
  exact ⟨by decide, h.1, h.2⟩

/-- C9: the three-character span of an opening brace, a second opening
brace and a closing brace parses as the brace-escape command (no index,
name the single opening brace, no case modifier) and compiles back to the
same three characters. -/
theorem c9 :
    FragmentContent.parse ['\x7b', '\x7b', '\x7d'] =
      .ok (.Command ⟨none, ['\x7b'], none⟩) ∧
    StringCommand.parse ['\x7b', '\x7b', '\x7d'] =
      some ⟨none, ['\x7b'], none⟩ ∧
    StringCommand.compile ⟨none, ['\x7b'], none⟩ =
      ['\x7b', '\x7b', '\x7d'] := by decide

/-- C10: no choice string of any successfully parsed string contains a
double quote or a closing brace, so the compiler's quoting rule never
needs an escape mechanism. -/
theorem c10 {s : Str} {p : ParsedString}
    (h : ParsedString.parse s = .ok p) :
    ∀ f ∈ p.fragments, ∀ cl : ChoiceList, f.content = .Choice cl →
      ∀ ch ∈ cl.choices, ∀ x ∈ ch, x ≠ '\x22' ∧ x ≠ '\x7d' := by
  intro f hf cl hcl ch hch x hx
  have hinv := (parse_inv h).1 f hf
  rw [hcl] at hinv
  obtain ⟨-, -, -, -, hchars⟩ := hinv
  exact ⟨(hchars ch hch x hx).1, (hchars ch hch x hx).2.1⟩

theorem c10_witness : ('a' : Char) ≠ '\x22' ∧ ('a' : Char) ≠ '\x7d' :=
  c10 (s := sp "P a b")
    (p := ⟨[⟨0, 7, .Choice ⟨['P'], none, none, [['a'], ['b']]⟩⟩]⟩)
    (by decide)
    ⟨0, 7, .Choice ⟨['P'], none, none, [['a'], ['b']]⟩⟩ (by decide)
    ⟨['P'], none, none, [['a'], ['b']]⟩ rfl
    ['a'] (by decide) 'a' (by decide)
